import Mathlib

/-!
Verification of the span/trace analysis kernel of the tianchi-2025
root-cause-analysis system.

The development shallowly embeds the two local algorithms of the repository:

* `FindRootCauseSpans.process_one_trace_log` / `find_root_cause_spans`
  (`analysis_engine/span_finders/error_span_finder.py`): per-trace selection
  of errored spans none of whose registered children also errored.

* `FindRootCauseSpansRT._process_exclusive_duration_data` and its helpers
  (`analysis_engine/span_finders/latency_span_finder.py`): ranking spans by
  exclusive duration, optional baseline normalization, per-trace top-1
  selection, the 95%-prefix cut, and the baseline averager
  (`_calculate_span_averages` / `_query_span_names_for_spans`).

Python floats are embedded as exact rationals (`ℚ`).  Because the field
operations on `ℚ` do not reduce inside the kernel, the embedding computes
with thin wrappers (`qadd`, `qsub`, `qmul`, `qdiv`) written with `mkRat`;
each wrapper is proved equal to the corresponding field operation, so all
algebraic reasoning happens over plain `ℚ` arithmetic.

Python dicts (insertion ordered, last write wins) are embedded as
association lists: `setEntry` models `d[k] = v`, `addEntry` models
`d.setdefault(k, []).append(v)`, and `List.lookup` models `d.get(k)`.
-/

/-- Kernel-computable addition on `ℚ` (proved equal to `+` below). -/
def qadd (a b : ℚ) : ℚ := mkRat (a.num * b.den + b.num * a.den) (a.den * b.den)

/-- Kernel-computable subtraction on `ℚ` (proved equal to `-` below). -/
def qsub (a b : ℚ) : ℚ := mkRat (a.num * b.den - b.num * a.den) (a.den * b.den)

/-- Kernel-computable multiplication on `ℚ` (proved equal to `*` below). -/
def qmul (a b : ℚ) : ℚ := mkRat (a.num * b.num) (a.den * b.den)

/-- Kernel-computable division on `ℚ` (proved equal to `/` below). -/
def qdiv (a b : ℚ) : ℚ := Rat.divInt (a.num * b.den) (a.den * b.num)

/-- Model of a Python dict write `d[k] = v`: replace the value in place when
the key is present (insertion order kept), otherwise append a fresh entry. -/
def setEntry {β : Type} : List (String × β) → String → β → List (String × β)
  | [], k, v => [(k, v)]
  | p :: rest, k, v =>
    if p.1 = k then (k, v) :: rest else p :: setEntry rest k v

/-- Model of `d.setdefault(k, []).append(v)` on a Python dict of lists. -/
def addEntry {α : Type} :
    List (String × List α) → String → α → List (String × List α)
  | [], k, v => [(k, [v])]
  | p :: rest, k, v =>
    if p.1 = k then (p.1, p.2 ++ [v]) :: rest else p :: addEntry rest k v

/-- The list stored under a key, `[]` when the key is absent. -/
def entriesOf {α : Type} (k : String) (m : List (String × List α)) : List α :=
  (m.lookup k).getD []

/-- Keys of an association list, in order. -/
def keysOf {β : Type} (m : List (String × β)) : List String := m.map (·.1)

/-- Digit-string to number; `none` on an empty or non-digit string.  Helper
for the model of Python `int(...)`. -/
def digitsToNat (l : List Char) : Option Nat :=
  if l = [] then none
  else
    l.foldl
      (fun acc c =>
        acc.bind (fun a => if c.isDigit then some (a * 10 + (c.toNat - 48)) else none))
      (some 0)

/-- Model of Python `int(str)` on the string forms that occur in span
records: an optional sign followed by decimal digits; any other string
raises `ValueError`, modelled as `none`. -/
def pyInt (s : String) : Option Int :=
  match s.data with
  | [] => none
  | '-' :: rest => (digitsToNat rest).map (fun n => -(n : Int))
  | '+' :: rest => (digitsToNat rest).map (fun n => (n : Int))
  | l => (digitsToNat l).map (fun n => (n : Int))

/-- One span record as consumed by `FindRootCauseSpans`: the four fields read
by `process_one_trace_log` and `find_root_cause_spans`.  All fields are raw
log strings; `statusCode` is parsed with `int(...)` inside the pass. -/
structure ESpan where
  spanId : String
  parentSpanId : String
  statusCode : String
  traceId : String
deriving DecidableEq

/-- Parsed status of a span, defaulting to 0; meaningful only where every
`statusCode` parses (`pyInt ... ≠ none`). -/
def statusD (s : ESpan) : Int := (pyInt s.statusCode).getD 0

/-- First pass of `process_one_trace_log` (error_span_finder.py lines
114-126): builds `span_status` (dict spanId → int status, last write wins)
and `child_spans` (dict parentSpanId → list of child spanIds, appended when
`parentSpanId` is truthy).  `int(span["statusCode"])` raising `ValueError`
on an unparsable status is modelled as `none`. -/
def buildMaps :
    List ESpan → List (String × Int) → List (String × List String) →
      Option (List (String × Int) × List (String × List String))
  | [], span_status, child_spans => some (span_status, child_spans)
  | s :: rest, span_status, child_spans =>
    match pyInt s.statusCode with
    | none => none
    | some v =>
      buildMaps rest (setEntry span_status s.spanId v)
        (if s.parentSpanId ≠ "" then addEntry child_spans s.parentSpanId s.spanId
         else child_spans)

/-- Model of `FindRootCauseSpans.process_one_trace_log`: spans whose status
is `> 1` and none of whose registered children has status `> 1`, in
first-seen order.  `none` models the `ValueError` raised on an unparsable
`statusCode`. -/
def process_one_trace_log (trace_log : List ESpan) : Option (List String) :=
  match buildMaps trace_log [] [] with
  | none => none
  | some (span_status, child_spans) =>
    let error_spans := (span_status.filter (fun p => 1 < p.2)).map (·.1)
    some (error_spans.filter (fun sid =>
      (entriesOf sid child_spans).all
        (fun c => (span_status.lookup c).getD 0 ≤ 1)))

/-- Grouping step of `find_root_cause_spans` (error_span_finder.py lines
83-89): partition the fetched spans by truthy `traceId`, preserving
first-seen order of traces and of spans within a trace. -/
def groupByTrace (spans : List ESpan) : List (String × List ESpan) :=
  spans.foldl
    (fun acc s => if s.traceId ≠ "" then addEntry acc s.traceId s else acc) []

/-- The per-trace loop of `find_root_cause_spans`: process each trace group
in order and concatenate the returned spanId lists; an exception from any
group aborts the whole call (`none`). -/
def processGroups : List (String × List ESpan) → Option (List String)
  | [] => some []
  | g :: rest =>
    match process_one_trace_log g.2 with
    | none => none
    | some ids =>
      match processGroups rest with
      | none => none
      | some out => some (ids ++ out)

/-- Model of `FindRootCauseSpans.find_root_cause_spans` applied to the spans
returned by the `statusCode>1` query: group by traceId, process each trace,
concatenate. -/
def find_root_cause_spans (all_spans : List ESpan) : Option (List String) :=
  processGroups (groupByTrace all_spans)

/-- Kernel-computable `max` on `ℚ`, models Python `max` (proved equal to
`max` below). -/
def qmax (a b : ℚ) : ℚ := if a ≤ b then b else a

/-- Kernel-computable `min` on `ℚ`, models Python `min` (proved equal to
`min` below). -/
def qmin (a b : ℚ) : ℚ := if a ≤ b then a else b

/-- Kernel-computable embedding of a count into `ℚ`. -/
def qofNat (n : ℕ) : ℚ := mkRat n 1

/-- Entry of the `span_list` column read by
`_extract_service_and_span_name`: only the `servicename` and `spanname`
fields are consumed by the modelled paths. -/
structure SpanInfo where
  servicename : String
  spanname : String
deriving DecidableEq

/-- One parsed result row of the exclusive-duration SPL query: parallel
arrays `span_id`, `span_index`, `exclusive_duration` plus the `span_list`
array.  A non-numeric duration cell is `none` (the code keeps a cell only
when `isinstance(duration, (int, float))`). -/
structure LogRow where
  span_id : List String
  span_index : List Int
  exclusive_duration : List (Option ℚ)
  span_list : List SpanInfo
deriving DecidableEq

/-- Options and constants of `FindRootCauseSpansRT` relevant to the local
computation: `minus_average`, `only_top1_per_trace`, the precomputed
`span_average_durations` map, and the constants `MAX_DURATION`,
`PERCENT_95` and `HIGH_RT_TRACES` (kept as parameters). -/
structure RTConfig where
  minus_average : Bool
  only_top1_per_trace : Bool
  span_average_durations : List (String × ℚ)
  maxDuration : ℚ
  percentile : ℚ
  sampleCap : ℕ
deriving DecidableEq

/-- The two working dicts filled by the per-row loop of
`_process_exclusive_duration_data`: `span_duration_mapping` and
`span_service_mapping`. -/
structure Maps where
  dur : List (String × ℚ)
  svc : List (String × (String × String))
deriving DecidableEq

/-- The combined key `f"{service_name}<sep>{span_name}"`. -/
def mkKey (service_name span_name : String) : String :=
  service_name ++ "<sep>" ++ span_name

/-- Bounds-checked read of `span_list[span_index]` followed by
`_extract_service_and_span_name` and the `if service_name and span_name`
truthiness guard; `none` when any of these fails. -/
def extractNames (span_list : List SpanInfo) (idx : Int) : Option (String × String) :=
  if 0 ≤ idx ∧ idx < (span_list.length : Int) then
    match span_list[idx.toNat]? with
    | some si =>
      if si.servicename ≠ "" ∧ si.spanname ≠ "" then
        some (si.servicename, si.spanname)
      else none
    | none => none
  else none

/-- The shared normalization arithmetic: when the span has resolved names
and its combined key has a baseline average, return
`min(max(0, trunc - avg), maxDuration)`; otherwise keep the (already
truncated) duration unchanged. -/
def normAdj (averages : List (String × ℚ)) (maxDuration : ℚ)
    (names : Option (String × String)) (trunc : ℚ) : ℚ :=
  match names with
  | some nm =>
    match averages.lookup (mkKey nm.1 nm.2) with
    | some avg => qmin (qmax 0 (qsub trunc avg)) maxDuration
    | none => trunc
  | none => trunc

/-- Model of Python `max(xs, key=f)`: the first element attaining the
maximal key (later elements replace the current best only when strictly
greater). -/
def pyMaxBy {α : Type} (key : α → ℚ) : List α → Option α
  | [] => none
  | x :: xs => some (xs.foldl (fun best y => if key best < key y then y else best) x)

/-- Candidate tuples `(span_id, span_index, adjusted, truncated)` built in
the `only_top1_per_trace` + `minus_average` branch (latency_span_finder.py
lines 310-345): positive numeric durations, truncated to `MAX_DURATION`,
with the baseline average subtracted where resolvable. -/
def adjustedCandidates (cfg : RTConfig) (row : LogRow) :
    List (String × Int × ℚ × ℚ) :=
  (row.span_id.zip (row.span_index.zip row.exclusive_duration)).filterMap
    (fun t =>
      match t.2.2 with
      | some d =>
        if 0 < d then
          some (t.1, t.2.1,
            normAdj cfg.span_average_durations cfg.maxDuration
              (extractNames row.span_list t.2.1) (qmin d cfg.maxDuration),
            qmin d cfg.maxDuration)
        else none
      | none => none)

/-- Candidate tuples `(span_id, span_index, truncated)` built in the
`only_top1_per_trace` branch without averaging (lines 374-384). -/
def validCandidates (cfg : RTConfig) (row : LogRow) : List (String × Int × ℚ) :=
  (row.span_id.zip (row.span_index.zip row.exclusive_duration)).filterMap
    (fun t =>
      match t.2.2 with
      | some d =>
        if 0 < d then some (t.1, t.2.1, qmin d cfg.maxDuration) else none
      | none => none)

/-- Loop body over one `(span_id, span_index, duration)` triple in the
default (all-spans) branch of `_process_exclusive_duration_data` (lines
407-425): keep positive numeric durations truncated to `MAX_DURATION` and
record resolvable identities. -/
def procSpan (cfg : RTConfig) (span_list : List SpanInfo) (mm : Maps)
    (t : String × Int × Option ℚ) : Maps :=
  match t.2.2 with
  | some d =>
    if 0 < d then
      ⟨setEntry mm.dur t.1 (qmin d cfg.maxDuration),
        match extractNames span_list t.2.1 with
        | some nm => setEntry mm.svc t.1 nm
        | none => mm.svc⟩
    else mm
  | none => mm

/-- Per-result-row loop body of `_process_exclusive_duration_data` (lines
283-429): skip rows with inconsistent array lengths, then either record the
per-trace top-1 span (by adjusted or by raw truncated duration) or record
every positive-duration span, filling `span_duration_mapping` and
`span_service_mapping`. -/
def procRow (cfg : RTConfig) (m : Maps) (row : LogRow) : Maps :=
  if row.span_id.length ≠ row.exclusive_duration.length ∨
      row.span_id.length ≠ row.span_index.length then m
  else if cfg.only_top1_per_trace then
    if cfg.minus_average ∧ cfg.span_average_durations ≠ [] then
      match pyMaxBy (fun q => q.2.2.1) (adjustedCandidates cfg row) with
      | some top =>
        ⟨setEntry m.dur top.1 top.2.2.2,
          match extractNames row.span_list top.2.1 with
          | some nm => setEntry m.svc top.1 nm
          | none => m.svc⟩
      | none => m
    else
      match pyMaxBy (fun q => q.2.2) (validCandidates cfg row) with
      | some top =>
        ⟨setEntry m.dur top.1 top.2.2,
          match extractNames row.span_list top.2.1 with
          | some nm => setEntry m.svc top.1 nm
          | none => m.svc⟩
      | none => m
  else
    (row.span_id.zip (row.span_index.zip row.exclusive_duration)).foldl
      (procSpan cfg row.span_list) m

/-- The whole collection phase over all result rows. -/
def buildMappings (cfg : RTConfig) (logs : List LogRow) : Maps :=
  logs.foldl (procRow cfg) ⟨[], []⟩

/-- The two identity-resolution strategies of the normalization step. -/
inductive Strategy where
  | direct : Strategy
  | resample : Strategy
deriving DecidableEq

/-- Strategy selection of `_process_exclusive_duration_data` (lines
441-473): with a non-empty `span_service_mapping`, use the direct mapping
when the coverage rate `len(svc)/len(dur)` is strictly above `0.5`,
otherwise fall back to the resampling query; with an empty mapping, always
resample. -/
def chooseStrategy (durLen svcLen : ℕ) : Strategy :=
  if svcLen ≠ 0 then
    if mkRat 1 2 < qdiv (qofNat svcLen) (qofNat durLen) then Strategy.direct
    else Strategy.resample
  else Strategy.resample

/-- The shared local adjustment loop of `_adjust_durations_directly` and the
tail of `_adjust_durations_with_span_average`: map every entry of
`span_duration_mapping` through `normAdj` using the identities found in
`span_service_mapping`. -/
def adjust_durations (averages : List (String × ℚ)) (maxDuration : ℚ)
    (span_service_mapping : List (String × (String × String)))
    (span_duration_mapping : List (String × ℚ)) : List (String × ℚ) :=
  span_duration_mapping.map
    (fun p =>
      (p.1, normAdj averages maxDuration (span_service_mapping.lookup p.1) p.2))

/-- Model of Python `sorted(ids, key=key, reverse=True)` on strings: a
stable descending sort (insertion sort is stable, so it computes the same
list as CPython's stable sort). -/
def pySortStrings (key : String → ℚ) (ids : List String) : List String :=
  List.insertionSort (fun a b => key b ≤ key a) ids

/-- Sampling step of `_adjust_durations_with_span_average` (lines 530-543):
when the working set exceeds the cap, keep the cap-many span ids of largest
duration (stable descending sort of the keys, then truncate). -/
def sampleTop (cap : ℕ) (m : List (String × ℚ)) : List String :=
  if m.length > cap then
    (pySortStrings (fun sid => (m.lookup sid).getD 0) (keysOf m)).take cap
  else keysOf m

/-- Identity map built by the batched lookup of
`_adjust_durations_with_span_average` (lines 549-589): the collaborator
rows whose span id falls in the sampled set and whose three fields are
truthy, written into a dict in row order. -/
def buildSvcResample (idents : List (String × (String × String)))
    (sampled : List String) : List (String × (String × String)) :=
  (idents.filter
      (fun r =>
        sampled.contains r.1 && r.1 != "" && r.2.1 != "" && r.2.2 != "")).foldl
    (fun acc r => setEntry acc r.1 r.2) []

/-- Model of `_adjust_durations_with_span_average`: sample, resolve
identities through the collaborator rows `idents`, then run the shared
local adjustment loop. -/
def adjust_durations_with_span_average (averages : List (String × ℚ))
    (maxDuration : ℚ) (cap : ℕ) (idents : List (String × (String × String)))
    (span_duration_mapping : List (String × ℚ)) : List (String × ℚ) :=
  adjust_durations averages maxDuration
    (buildSvcResample idents (sampleTop cap span_duration_mapping))
    span_duration_mapping

/-- Adjustment phase of `_process_exclusive_duration_data` (lines 431-479):
empty mapping short-circuits; with normalization active the strategy choice
picks direct or resampled identity resolution; otherwise durations are just
re-truncated. -/
def adjustedStage (cfg : RTConfig) (idents : List (String × (String × String)))
    (logs : List LogRow) : List (String × ℚ) :=
  let m := buildMappings cfg logs
  if m.dur = [] then []
  else if cfg.minus_average ∧ cfg.span_average_durations ≠ [] then
    match chooseStrategy m.dur.length m.svc.length with
    | Strategy.direct =>
      adjust_durations cfg.span_average_durations cfg.maxDuration m.svc m.dur
    | Strategy.resample =>
      adjust_durations_with_span_average cfg.span_average_durations
        cfg.maxDuration cfg.sampleCap idents m.dur
  else m.dur.map (fun p => (p.1, qmin p.2 cfg.maxDuration))

/-- Model of `adjusted_span_durations.sort(key=lambda x: x[1],
reverse=True)`: stable descending sort by duration. -/
def pySortPairs (l : List (String × ℚ)) : List (String × ℚ) :=
  List.insertionSort (fun a b => b.2 ≤ a.2) l

/-- Python `sum(...)` over rationals. -/
def qsum (l : List ℚ) : ℚ := l.foldl qadd 0

/-- The accumulation loop of lines 493-502: append span ids of the sorted
list, stopping inclusively as soon as the running sum reaches the target. -/
def takeUntilTarget (target : ℚ) : List (String × ℚ) → ℚ → List String
  | [], _ => []
  | p :: rest, acc =>
    p.1 ::
      (if target ≤ qadd acc p.2 then []
       else takeUntilTarget target rest (qadd acc p.2))

/-- Ranking-and-cut phase of `_process_exclusive_duration_data` (lines
481-511): sort descending, total the durations, return `[]` when the total
is zero, else take the inclusive prefix reaching `total * percentile`. -/
def rankAndSelect (percentile : ℚ) (adjusted : List (String × ℚ)) : List String :=
  let sorted := pySortPairs adjusted
  let total := qsum (sorted.map (·.2))
  if total = 0 then [] else takeUntilTarget (qmul total percentile) sorted 0

/-- Model of the local computation of `find_top_95_percent_spans` /
`_process_exclusive_duration_data` on parsed query rows: collection,
adjustment, ranking and the 95%-prefix cut. -/
def find_top_95_percent_spans (cfg : RTConfig)
    (idents : List (String × (String × String))) (logs : List LogRow) :
    List String :=
  rankAndSelect cfg.percentile (adjustedStage cfg idents logs)

/-- A result row of the reference-window exclusive-duration query as read
by `_calculate_span_averages`: only `span_id` and `exclusive_duration` are
consumed. -/
structure BRow where
  span_id : List String
  exclusive_duration : List (Option ℚ)
deriving DecidableEq

/-- Loop body over one `(span_id, duration)` pair of the reference-window
collection: keep strictly positive numeric durations, unclamped. -/
def collectSpan (mm : List (String × ℚ)) (t : String × Option ℚ) :
    List (String × ℚ) :=
  match t.2 with
  | some d => if 0 < d then setEntry mm t.1 d else mm
  | none => mm

/-- Per-row collection loop of `_calculate_span_averages` (lines 810-826):
skip rows with inconsistent lengths, keep strictly positive numeric
durations keyed by span id (last write wins), without any truncation. -/
def collectRow (m : List (String × ℚ)) (row : BRow) : List (String × ℚ) :=
  if row.span_id.length ≠ row.exclusive_duration.length then m
  else (row.span_id.zip row.exclusive_duration).foldl collectSpan m

/-- The reference-window duration mapping collected over all rows. -/
def baselineCollect (logs : List BRow) : List (String × ℚ) :=
  logs.foldl collectRow []

/-- Sampling step of `_query_span_names_for_spans` (lines 845-857): when
the collected set exceeds `TRACES_FOR_AVG_RT`, keep the cap-many span ids
of largest duration and restrict the mapping to them. -/
def baselineRetain (cap : ℕ) (collected : List (String × ℚ)) :
    List (String × ℚ) :=
  if collected.length > cap then
    ((pySortStrings (fun sid => (collected.lookup sid).getD 0)
          (keysOf collected)).take cap).map
      (fun sid => (sid, (collected.lookup sid).getD 0))
  else collected

/-- Grouping loop of `_query_span_names_for_spans` (lines 894-906): for
each collaborator identity row whose span id is retained and whose names
are truthy, append the span's duration under the combined key. -/
def groupBaseline (retained : List (String × ℚ))
    (idents : List (String × (String × String))) : List (String × List ℚ) :=
  idents.foldl
    (fun acc r =>
      match retained.lookup r.1 with
      | some d =>
        if r.2.1 ≠ "" ∧ r.2.2 ≠ "" then addEntry acc (mkKey r.2.1 r.2.2) d
        else acc
      | none => acc) []

/-- Model of `_calculate_span_averages` + `_query_span_names_for_spans` on
parsed reference-window rows (the `ComputeBaselines` contract): collect
positive durations, sample the largest, resolve identities through the
collaborator rows, and average per combined key with `np.mean`. -/
def calculate_span_averages (cap : ℕ)
    (idents : List (String × (String × String))) (logs : List BRow) :
    List (String × ℚ) :=
  let collected := baselineCollect logs
  if collected = [] then []
  else
    (groupBaseline (baselineRetain cap collected) idents).map
      (fun g => (g.1, qdiv (qsum g.2) (qofNat g.2.length)))

/-- Example configuration for the `onlyTopPerTrace` + normalization path:
baselines A↦2, B↦10, C↦1 for service `sv`. -/
def exCfgTop1 : RTConfig :=
  ⟨true, true,
    [(mkKey "sv" "A", 2), (mkKey "sv" "B", 10), (mkKey "sv" "C", 1)],
    5000000, mkRat 19 20, 2000⟩

/-- Example trace row with spans A(raw 10), B(raw 12), C(raw 8): adjusted
durations 8, 2, 7. -/
def exRowABC : LogRow :=
  ⟨["A", "B", "C"], [0, 1, 2], [some 10, some 12, some 8],
    [⟨"sv", "A"⟩, ⟨"sv", "B"⟩, ⟨"sv", "C"⟩]⟩

/-- Example trace row with two spans of equal adjusted duration, span `b`
appearing before span `a` in the query result. -/
def exRowTie : LogRow :=
  ⟨["b", "a"], [0, 1], [some 7, some 7], [⟨"sv", "X"⟩, ⟨"sv", "X"⟩]⟩

/-- Specification-side view of the grouping loop: the durations of the
retained spans that the collaborator rows resolve to a given combined key,
in row order. -/
def durationsFor (key : String) (retained : List (String × ℚ))
    (idents : List (String × (String × String))) : List ℚ :=
  idents.filterMap (fun r =>
    match retained.lookup r.1 with
    | some d =>
      if r.2.1 ≠ "" ∧ r.2.2 ≠ "" ∧ mkKey r.2.1 r.2.2 = key then some d
      else none
    | none => none)

-- DEFS-END

theorem qadd_eq (a b : ℚ) : qadd a b = a + b := by
  have ha : (a.den : ℚ) ≠ 0 := by positivity
  have hb : (b.den : ℚ) ≠ 0 := by positivity
  rw [qadd, Rat.mkRat_eq_div]
  push_cast
  conv_rhs => rw [← Rat.num_div_den a, ← Rat.num_div_den b]
  rw [div_add_div _ _ ha hb]
  congr 1
  ring

theorem qsub_eq (a b : ℚ) : qsub a b = a - b := by
  have ha : (a.den : ℚ) ≠ 0 := by positivity
  have hb : (b.den : ℚ) ≠ 0 := by positivity
  rw [qsub, Rat.mkRat_eq_div]
  push_cast
  conv_rhs => rw [← Rat.num_div_den a, ← Rat.num_div_den b]
  rw [div_sub_div _ _ ha hb]
  congr 1
  ring

theorem qmul_eq (a b : ℚ) : qmul a b = a * b := by
  rw [qmul, Rat.mkRat_eq_div]
  push_cast
  conv_rhs => rw [← Rat.num_div_den a, ← Rat.num_div_den b]
  rw [div_mul_div_comm]

theorem qdiv_eq (a b : ℚ) : qdiv a b = a / b := by
  rw [qdiv, Rat.divInt_eq_div]
  push_cast
  rcases eq_or_ne b 0 with hb | hb
  · subst hb
    simp
  · have ha : (a.den : ℚ) ≠ 0 := by positivity
    have hb' : (b.den : ℚ) ≠ 0 := by positivity
    have hbn : (b.num : ℚ) ≠ 0 := Int.cast_ne_zero.mpr (Rat.num_ne_zero.mpr hb)
    rw [div_eq_div_iff (by exact mul_ne_zero ha hbn) hb]
    have h1 : (a.num : ℚ) = a * (a.den : ℚ) := (div_eq_iff ha).mp (Rat.num_div_den a)
    have h2 : (b.num : ℚ) = b * (b.den : ℚ) := (div_eq_iff hb').mp (Rat.num_div_den b)
    rw [h1, h2]
    ring

theorem lookup_setEntry {β : Type} (m : List (String × β)) (k k' : String)
    (v : β) :
    (setEntry m k v).lookup k' = if k' = k then some v else m.lookup k' := by
  induction m with
  | nil =>
    by_cases h : k' = k
    · simp [setEntry, List.lookup, h]
    · simp [setEntry, List.lookup, h, beq_eq_false_iff_ne.mpr h]
  | cons p rest ih =>
    obtain ⟨pk, pv⟩ := p
    by_cases hp : pk = k
    · subst hp
      simp only [setEntry, if_pos rfl]
      by_cases h : k' = pk
      · simp [List.lookup, h]
      · simp [List.lookup, h, beq_eq_false_iff_ne.mpr h]
    · simp only [setEntry, if_neg hp]
      by_cases hq : k' = pk
      · have hk : k' ≠ k := fun hc => hp (hq.symm.trans hc)
        simp [List.lookup, hq, hk, hp]
      · simp [List.lookup, beq_eq_false_iff_ne.mpr hq, ih]

theorem keysOf_setEntry {β : Type} (m : List (String × β)) (k : String)
    (v : β) :
    keysOf (setEntry m k v) =
      if k ∈ keysOf m then keysOf m else keysOf m ++ [k] := by
  induction m with
  | nil => simp [setEntry, keysOf]
  | cons p rest ih =>
    obtain ⟨pk, pv⟩ := p
    by_cases hp : pk = k
    · subst hp
      simp [setEntry, keysOf]
    · simp only [setEntry, if_neg hp, keysOf, List.map_cons]
      have hkeys : (keysOf (setEntry rest k v) : List String) =
          List.map (fun x => x.1) (setEntry rest k v) := rfl
      by_cases h : k ∈ keysOf rest
      · rw [← hkeys, ih, if_pos h]
        have : k ∈ pk :: List.map (fun x => x.1) rest := by
          right
          exact h
        rw [if_pos this]
        rfl
      · rw [← hkeys, ih, if_neg h]
        have : ¬ k ∈ pk :: List.map (fun x => x.1) rest := by
          intro hc
          rw [List.mem_cons] at hc
          rcases hc with hc | hc
          · exact hp hc.symm
          · exact h hc
        rw [if_neg this]
        simp [keysOf]

theorem keysOf_setEntry_nodup {β : Type} (m : List (String × β)) (k : String)
    (v : β) (h : (keysOf m).Nodup) : (keysOf (setEntry m k v)).Nodup := by
  rw [keysOf_setEntry]
  by_cases hk : k ∈ keysOf m
  · rwa [if_pos hk]
  · rw [if_neg hk]
    refine List.Nodup.append h (List.nodup_singleton k) ?_
    intro a ha hb
    rw [List.mem_singleton] at hb
    exact hk (hb ▸ ha)

theorem lookup_addEntry {α : Type} (m : List (String × List α))
    (k k' : String) (v : α) :
    (addEntry m k v).lookup k' =
      if k' = k then some ((m.lookup k).getD [] ++ [v]) else m.lookup k' := by
  induction m with
  | nil =>
    by_cases h : k' = k
    · simp [addEntry, List.lookup, h]
    · simp [addEntry, List.lookup, h, beq_eq_false_iff_ne.mpr h]
  | cons p rest ih =>
    obtain ⟨pk, pv⟩ := p
    by_cases hp : pk = k
    · subst hp
      simp only [addEntry, if_pos rfl]
      by_cases h : k' = pk
      · simp [List.lookup, h]
      · simp [List.lookup, h, beq_eq_false_iff_ne.mpr h]
    · simp only [addEntry, if_neg hp]
      by_cases hq : k' = pk
      · have hk : k' ≠ k := fun hc => hp (hq.symm.trans hc)
        simp [List.lookup, hq, hk, hp]
      · by_cases h : k' = k
        · subst h
          simp [List.lookup, beq_eq_false_iff_ne.mpr hq, ih]
        · simp [List.lookup, beq_eq_false_iff_ne.mpr hq, ih, h]

theorem entriesOf_addEntry {α : Type} (m : List (String × List α))
    (k k' : String) (v : α) :
    entriesOf k' (addEntry m k v) =
      if k' = k then entriesOf k' m ++ [v] else entriesOf k' m := by
  simp only [entriesOf, lookup_addEntry]
  by_cases h : k' = k
  · subst h
    simp
  · simp [h]

theorem keysOf_addEntry {α : Type} (m : List (String × List α)) (k : String)
    (v : α) :
    keysOf (addEntry m k v) =
      if k ∈ keysOf m then keysOf m else keysOf m ++ [k] := by
  induction m with
  | nil => simp [addEntry, keysOf]
  | cons p rest ih =>
    obtain ⟨pk, pv⟩ := p
    by_cases hp : pk = k
    · subst hp
      simp [addEntry, keysOf]
    · simp only [addEntry, if_neg hp, keysOf, List.map_cons]
      have hkeys : (keysOf (addEntry rest k v) : List String) =
          List.map (fun x => x.1) (addEntry rest k v) := rfl
      by_cases h : k ∈ keysOf rest
      · rw [← hkeys, ih, if_pos h]
        have : k ∈ pk :: List.map (fun x => x.1) rest := by
          right
          exact h
        rw [if_pos this]
        rfl
      · rw [← hkeys, ih, if_neg h]
        have : ¬ k ∈ pk :: List.map (fun x => x.1) rest := by
          intro hc
          rw [List.mem_cons] at hc
          rcases hc with hc | hc
          · exact hp hc.symm
          · exact h hc
        rw [if_neg this]
        simp [keysOf]

theorem mem_of_lookup_eq_some {β : Type} {m : List (String × β)} {k : String}
    {v : β} (h : m.lookup k = some v) : (k, v) ∈ m := by
  induction m with
  | nil => simp [List.lookup] at h
  | cons p rest ih =>
    obtain ⟨pk, pv⟩ := p
    by_cases hk : k = pk
    · subst hk
      simp [List.lookup] at h
      simp [h]
    · simp only [List.lookup, beq_eq_false_iff_ne.mpr hk] at h
      exact List.mem_cons_of_mem _ (ih h)

theorem lookup_eq_some_of_mem {β : Type} {m : List (String × β)} {k : String}
    {v : β} (hnd : (keysOf m).Nodup) (h : (k, v) ∈ m) :
    m.lookup k = some v := by
  induction m with
  | nil => simp at h
  | cons p rest ih =>
    obtain ⟨pk, pv⟩ := p
    simp only [keysOf, List.map_cons, List.nodup_cons] at hnd
    rcases List.mem_cons.mp h with h | h
    · injection h with h1 h2
      subst h1
      subst h2
      simp [List.lookup]
    · have hne : k ≠ pk := by
        intro hc
        exact hnd.1 (hc ▸ (List.mem_map.mpr ⟨(k, v), h, rfl⟩))
      simp only [List.lookup, beq_eq_false_iff_ne.mpr hne]
      exact ih hnd.2 h

theorem qmax_eq (a b : ℚ) : qmax a b = max a b := (max_def a b).symm

theorem qmin_eq (a b : ℚ) : qmin a b = min a b := (min_def a b).symm

theorem qofNat_eq (n : ℕ) : qofNat n = (n : ℚ) := by
  rw [qofNat, Rat.mkRat_eq_div]
  push_cast
  exact div_one _

theorem foldl_qadd_eq (l : List ℚ) : ∀ init : ℚ, l.foldl qadd init = init + l.sum := by
  induction l with
  | nil => intro init; simp [List.foldl]
  | cons x xs ih =>
    intro init
    rw [List.foldl_cons, ih, qadd_eq, List.sum_cons]
    ring

theorem qsum_eq (l : List ℚ) : qsum l = l.sum := by
  rw [qsum, foldl_qadd_eq]
  ring

theorem lookup_map_value {β γ : Type} (f : String × β → γ) (m : List (String × β))
    (k : String) :
    ((m.map (fun p => (p.1, f p))).lookup k) =
      match m.lookup k with
      | some v => some (f (k, v))
      | none => none := by
  induction m with
  | nil => simp [List.lookup]
  | cons p rest ih =>
    obtain ⟨pk, pv⟩ := p
    by_cases hk : k = pk
    · subst hk
      simp [List.lookup]
    · simp only [List.map_cons, List.lookup, beq_eq_false_iff_ne.mpr hk]
      exact ih

/-- C5: under normalization, an identity-resolved span with a baseline entry
gets adjusted duration `max(0, clamped raw - baseline average)` re-clamped
to `maxDuration`; a span with no baseline entry or no resolved identity
keeps its clamped raw duration; adjusted durations are never negative; raw
500 against baseline 200 yields 300, raw 500 against baseline 600 yields
0. -/
theorem c5_normalized_adjustment :
    (∀ (averages : List (String × ℚ)) (maxD : ℚ)
        (svc : List (String × (String × String))) (dur : List (String × ℚ))
        (sid : String) (d : ℚ) (nm : String × String) (avg : ℚ),
        (keysOf dur).Nodup → dur.lookup sid = some d →
        svc.lookup sid = some nm →
        averages.lookup (mkKey nm.1 nm.2) = some avg →
        (adjust_durations averages maxD svc dur).lookup sid =
          some (min (max 0 (d - avg)) maxD)) ∧
    (∀ (averages : List (String × ℚ)) (maxD : ℚ)
        (svc : List (String × (String × String))) (dur : List (String × ℚ))
        (sid : String) (d : ℚ),
        (keysOf dur).Nodup → dur.lookup sid = some d →
        (svc.lookup sid = none ∨
          ∃ nm, svc.lookup sid = some nm ∧
            averages.lookup (mkKey nm.1 nm.2) = none) →
        (adjust_durations averages maxD svc dur).lookup sid = some d) ∧
    (∀ (averages : List (String × ℚ)) (maxD : ℚ)
        (svc : List (String × (String × String))) (dur : List (String × ℚ)),
        0 ≤ maxD → (∀ p ∈ dur, 0 ≤ p.2) →
        ∀ q ∈ adjust_durations averages maxD svc dur, 0 ≤ q.2) ∧
    adjust_durations [(mkKey "svc" "op", 200)] 5000000
        [("x", ("svc", "op"))] [("x", 500)] = [("x", 300)] ∧
    adjust_durations [(mkKey "svc" "op", 600)] 5000000
        [("x", ("svc", "op"))] [("x", 500)] = [("x", 0)] := by
  refine ⟨?_, ?_, ?_, by decide, by decide⟩
  · intro averages maxD svc dur sid d nm avg hnd hdur hsvc havg
    rw [adjust_durations, lookup_map_value, hdur]
    simp only [normAdj, hsvc, havg, qmin_eq, qmax_eq, qsub_eq]
  · intro averages maxD svc dur sid d hnd hdur hmiss
    rw [adjust_durations, lookup_map_value, hdur]
    rcases hmiss with hnone | ⟨nm, hsvc, havg⟩
    · simp [normAdj, hnone]
    · simp [normAdj, hsvc, havg]
  · intro averages maxD svc dur hmax hpos q hq
    rw [adjust_durations, List.mem_map] at hq
    obtain ⟨p, hp, hq⟩ := hq
    subst hq
    simp only
    rcases hsvc : svc.lookup p.1 with _ | nm
    · simpa [normAdj, hsvc] using hpos p hp
    · rcases havg : List.lookup (mkKey nm.1 nm.2) averages with _ | avg
      · simpa [normAdj, hsvc, havg] using hpos p hp
      · simp only [normAdj, hsvc, havg, qmin_eq, qmax_eq, qsub_eq]
        exact le_min (le_max_left 0 _) hmax

/-- Witness for `c5_normalized_adjustment` at concrete inputs: the span
`x` with clamped raw 500, identity `(svc, op)` and baseline 200 is adjusted
to 300; with the baseline entry absent it keeps 500; a nonnegative input
map yields nonnegative outputs. -/
theorem c5_witness :
    (adjust_durations [(mkKey "svc" "op", 200)] 5000000
        [("x", ("svc", "op"))] [("x", 500)]).lookup "x" =
      some (min (max 0 ((500 : ℚ) - 200)) 5000000) ∧
    (adjust_durations [] 5000000 [("x", ("svc", "op"))]
        [("x", 500)]).lookup "x" = some 500 ∧
    ∀ q ∈ adjust_durations [(mkKey "svc" "op", 200)] 5000000
        [("x", ("svc", "op"))] [("x", 500)], 0 ≤ q.2 := by
  refine ⟨?_, ?_, ?_⟩
  · exact c5_normalized_adjustment.1 _ _ _ _ "x" 500 ("svc", "op") 200
      (by decide) (by decide) (by decide) (by decide)
  · exact c5_normalized_adjustment.2.1 _ _ _ _ "x" 500 (by decide) (by decide)
      (Or.inr ⟨("svc", "op"), by decide, by decide⟩)
  · exact c5_normalized_adjustment.2.2.1 _ _ _ _ (by decide)
      (by intro p hp; rcases List.mem_singleton.mp hp with rfl; decide)

/-- C8 (amended): with a non-empty identity mapping, direct mode is chosen
exactly when the coverage rate is strictly greater than one half (coverage
of exactly 50% falls back to resample); with an empty identity mapping
(zero resolved identities) resample is always chosen. -/
theorem c8_strategy_selection :
    (∀ durLen svcLen : ℕ, svcLen = 0 →
      chooseStrategy durLen svcLen = Strategy.resample) ∧
    (∀ durLen svcLen : ℕ, svcLen ≠ 0 →
      (chooseStrategy durLen svcLen = Strategy.direct ↔
        (1 : ℚ) / 2 < (svcLen : ℚ) / (durLen : ℚ))) := by
  constructor
  · intro durLen svcLen h
    subst h
    simp [chooseStrategy]
  · intro durLen svcLen h
    have hhalf : (mkRat 1 2 : ℚ) = (1 : ℚ) / 2 := by
      rw [Rat.mkRat_eq_div]
      norm_num
    simp only [chooseStrategy, if_pos h, qdiv_eq, qofNat_eq, hhalf]
    by_cases hc : (1 : ℚ) / 2 < (svcLen : ℚ) / (durLen : ℚ)
    · simp [hc]
    · simp [hc]

/-- Witness for `c8_strategy_selection`: zero resolved identities forces
resample, and a computed direct choice at coverage 3/4 certifies that the
coverage rate exceeds one half. -/
theorem c8_witness :
    chooseStrategy 5 0 = Strategy.resample ∧
    (1 : ℚ) / 2 < ((3 : ℕ) : ℚ) / ((4 : ℕ) : ℚ) := by
  constructor
  · exact c8_strategy_selection.1 5 0 rfl
  · exact (c8_strategy_selection.2 4 3 (by decide)).mp (by decide)

/-- Counterexample to C8 as stated: with 2 working spans and 1 resolved
identity the coverage is exactly 50%, which the claim requires to use
direct mode, but the code (`coverage_rate > 0.5`) falls back to resample. -/
theorem c8_half_coverage_counterexample :
    chooseStrategy 2 1 = Strategy.resample ∧
    ((1 : ℕ) : ℚ) / ((2 : ℕ) : ℚ) = 1 / 2 := by
  constructor
  · decide
  · norm_num

theorem takeUntilTarget_spec (target : ℚ) :
    ∀ (l : List (String × ℚ)) (acc : ℚ), acc < target →
      target ≤ acc + (l.map (·.2)).sum →
      ∃ k, 0 < k ∧ k ≤ l.length ∧
        takeUntilTarget target l acc = (l.take k).map (·.1) ∧
        target ≤ acc + ((l.take k).map (·.2)).sum ∧
        ∀ j < k, acc + ((l.take j).map (·.2)).sum < target := by
  intro l
  induction l with
  | nil =>
    intro acc h1 h2
    simp only [List.map_nil, List.sum_nil, add_zero] at h2
    linarith
  | cons p rest ih =>
    intro acc h1 h2
    by_cases hc : target ≤ qadd acc p.2
    · refine ⟨1, one_pos, by simp, ?_, ?_, ?_⟩
      · simp [takeUntilTarget, hc]
      · rw [qadd_eq] at hc
        simpa using hc
      · intro j hj
        interval_cases j
        simpa using h1
    · rw [qadd_eq] at hc
      push_neg at hc
      rw [List.map_cons, List.sum_cons] at h2
      obtain ⟨k', hk0, hklen, heq, hsum, hmin⟩ :=
        ih (acc + p.2) hc (by linarith)
      refine ⟨k' + 1, by omega, by simpa using hklen, ?_, ?_, ?_⟩
      · rw [takeUntilTarget, if_neg (by rw [qadd_eq]; exact not_le.mpr hc),
          List.take_succ_cons, List.map_cons]
        rw [qadd_eq]
        exact congrArg _ heq
      · rw [List.take_succ_cons, List.map_cons, List.sum_cons]
        linarith
      · intro j hj
        match j with
        | 0 => simpa using h1
        | Nat.succ j' =>
          rw [List.take_succ_cons, List.map_cons, List.sum_cons]
          have := hmin j' (by omega)
          linarith

/-- C2: whenever all adjusted durations are nonnegative and the percentile
lies in `(0, 1]`, a zero total yields an empty selection, and otherwise the
selection is the smallest prefix of the descending-sorted list whose
cumulative duration reaches `total * percentile` (every shorter prefix,
in particular the output without its last element, stays strictly below
the target).  On durations `[70, 10, 10, 5, 5]` at percentile `0.95` the
output is `[a, b, c, d]` and `e` is excluded. -/
theorem c2_percentile_selection :
    (∀ (percentile : ℚ) (adjusted : List (String × ℚ)),
        (∀ p ∈ adjusted, 0 ≤ p.2) → 0 < percentile → percentile ≤ 1 →
        (qsum ((pySortPairs adjusted).map (·.2)) = 0 →
          rankAndSelect percentile adjusted = []) ∧
        (qsum ((pySortPairs adjusted).map (·.2)) ≠ 0 →
          ∃ k, 0 < k ∧ k ≤ (pySortPairs adjusted).length ∧
            rankAndSelect percentile adjusted =
              ((pySortPairs adjusted).take k).map (·.1) ∧
            qsum ((pySortPairs adjusted).map (·.2)) * percentile ≤
              (((pySortPairs adjusted).take k).map (·.2)).sum ∧
            ∀ j < k, (((pySortPairs adjusted).take j).map (·.2)).sum <
              qsum ((pySortPairs adjusted).map (·.2)) * percentile)) ∧
    rankAndSelect (mkRat 19 20)
        [("a", 70), ("b", 10), ("c", 10), ("d", 5), ("e", 5)] =
      ["a", "b", "c", "d"] ∧
    "e" ∉ rankAndSelect (mkRat 19 20)
        [("a", 70), ("b", 10), ("c", 10), ("d", 5), ("e", 5)] := by
  refine ⟨?_, by decide, by decide⟩
  intro percentile adjusted hpos hp0 hp1
  constructor
  · intro h0
    simp only [rankAndSelect]
    rw [if_pos h0]
  · intro hne
    have hpos' : ∀ p ∈ pySortPairs adjusted, 0 ≤ p.2 := by
      intro p hp
      exact hpos p ((List.perm_insertionSort _ adjusted).subset hp)
    have hsum0 : 0 ≤ ((pySortPairs adjusted).map (·.2)).sum := by
      apply List.sum_nonneg
      intro x hx
      obtain ⟨p, hp, rfl⟩ := List.mem_map.mp hx
      exact hpos' p hp
    rw [qsum_eq] at hne
    have htotpos : 0 < ((pySortPairs adjusted).map (·.2)).sum :=
      lt_of_le_of_ne hsum0 (Ne.symm hne)
    have h1 : (0 : ℚ) < ((pySortPairs adjusted).map (·.2)).sum * percentile :=
      mul_pos htotpos hp0
    have h2 : ((pySortPairs adjusted).map (·.2)).sum * percentile ≤
        0 + ((pySortPairs adjusted).map (·.2)).sum := by
      rw [zero_add]
      exact mul_le_of_le_one_right (le_of_lt htotpos) hp1
    obtain ⟨k, hk0, hklen, heq, hsum, hmin⟩ :=
      takeUntilTarget_spec (((pySortPairs adjusted).map (·.2)).sum * percentile)
        (pySortPairs adjusted) 0 h1 h2
    refine ⟨k, hk0, hklen, ?_, ?_, ?_⟩
    · rw [← heq]
      simp only [rankAndSelect]
      rw [if_neg (by rw [qsum_eq]; exact hne), qsum_eq, qmul_eq]
    · rw [qsum_eq]
      simpa using hsum
    · intro j hj
      rw [qsum_eq]
      have := hmin j hj
      linarith

/-- Witness for `c2_percentile_selection`: the spec example instantiates the
general statement at percentile `19/20` with all durations nonnegative and
a non-zero total, and the computed output is `[a, b, c, d]`. -/
theorem c2_witness :
    ∃ k, 0 < k ∧
      k ≤ (pySortPairs
        [("a", 70), ("b", 10), ("c", 10), ("d", 5), ("e", 5)]).length ∧
      rankAndSelect (mkRat 19 20)
          [("a", 70), ("b", 10), ("c", 10), ("d", 5), ("e", 5)] =
        ((pySortPairs
          [("a", 70), ("b", 10), ("c", 10), ("d", 5), ("e", 5)]).take k).map
            (·.1) ∧
      qsum ((pySortPairs
          [("a", 70), ("b", 10), ("c", 10), ("d", 5), ("e", 5)]).map (·.2)) *
          mkRat 19 20 ≤
        (((pySortPairs
          [("a", 70), ("b", 10), ("c", 10), ("d", 5), ("e", 5)]).take k).map
            (·.2)).sum ∧
      ∀ j < k,
        (((pySortPairs
          [("a", 70), ("b", 10), ("c", 10), ("d", 5), ("e", 5)]).take j).map
            (·.2)).sum <
          qsum ((pySortPairs
            [("a", 70), ("b", 10), ("c", 10), ("d", 5), ("e", 5)]).map (·.2)) *
            mkRat 19 20 := by
  refine ((c2_percentile_selection.1 (mkRat 19 20)
      [("a", 70), ("b", 10), ("c", 10), ("d", 5), ("e", 5)]
      ?_ ?_ ?_).2 ?_)
  · intro p hp
    fin_cases hp <;> decide
  · decide
  · decide
  · decide

/-- Counterexample to C4 as stated: with normalization requested
(`minus_average=True`) and no baseline map (empty
`span_average_durations`), the selector does not fail with any error — it
returns the complete ordinary selection, identical to the run with
normalization disabled. -/
theorem c4_no_error_counterexample :
    find_top_95_percent_spans ⟨true, false, [], 5000000, mkRat 19 20, 2000⟩ []
        [⟨["x"], [0], [some 10], [⟨"s", "n"⟩]⟩] = ["x"] ∧
    find_top_95_percent_spans ⟨false, false, [], 5000000, mkRat 19 20, 2000⟩ []
        [⟨["x"], [0], [some 10], [⟨"s", "n"⟩]⟩] = ["x"] := by
  constructor <;> decide

/-- C4 (amended): normalization requested without an available baseline map
is not an error: the whole computation proceeds and returns exactly the
result of the same call with normalization disabled. -/
theorem c4_missing_baseline_silent (cfg : RTConfig)
    (idents : List (String × (String × String))) (logs : List LogRow)
    (h : cfg.span_average_durations = []) :
    find_top_95_percent_spans cfg idents logs =
      find_top_95_percent_spans
        ⟨false, cfg.only_top1_per_trace, [], cfg.maxDuration, cfg.percentile,
          cfg.sampleCap⟩ idents logs := by
  obtain ⟨ma, t1, avgs, maxD, pc, cap⟩ := cfg
  simp only at h
  subst h
  cases ma
  · rfl
  · have hproc : ∀ (m : Maps) (r : LogRow),
        procRow ⟨true, t1, [], maxD, pc, cap⟩ m r =
          procRow ⟨false, t1, [], maxD, pc, cap⟩ m r := by
      intro m r
      simp only [procRow]
      rfl
    have hfold : ∀ (rows : List LogRow) (m : Maps),
        rows.foldl (procRow ⟨true, t1, [], maxD, pc, cap⟩) m =
          rows.foldl (procRow ⟨false, t1, [], maxD, pc, cap⟩) m := by
      intro rows
      induction rows with
      | nil => intro m; rfl
      | cons r rs ih =>
        intro m
        rw [List.foldl_cons, List.foldl_cons, hproc, ih]
    simp only [find_top_95_percent_spans, adjustedStage, buildMappings, hfold]
    norm_num

/-- Witness for `c4_missing_baseline_silent` at a concrete run. -/
theorem c4_witness :
    find_top_95_percent_spans ⟨true, true, [], 5000000, mkRat 19 20, 2000⟩ []
        [⟨["x", "y"], [0, 1], [some 10, some 4], [⟨"s", "n"⟩, ⟨"s", "m"⟩]⟩] =
      find_top_95_percent_spans ⟨false, true, [], 5000000, mkRat 19 20, 2000⟩ []
        [⟨["x", "y"], [0, 1], [some 10, some 4], [⟨"s", "n"⟩, ⟨"s", "m"⟩]⟩] :=
  c4_missing_baseline_silent ⟨true, true, [], 5000000, mkRat 19 20, 2000⟩ []
    [⟨["x", "y"], [0, 1], [some 10, some 4], [⟨"s", "n"⟩, ⟨"s", "m"⟩]⟩] rfl

theorem mem_setEntry {β : Type} {m : List (String × β)} {k : String} {v : β}
    {p : String × β} (h : p ∈ setEntry m k v) : p ∈ m ∨ p = (k, v) := by
  induction m with
  | nil => simpa [setEntry] using h
  | cons q rest ih =>
    by_cases hq : q.1 = k
    · rw [setEntry, if_pos hq] at h
      rcases List.mem_cons.mp h with h | h
      · exact Or.inr h
      · exact Or.inl (List.mem_cons_of_mem _ h)
    · rw [setEntry, if_neg hq] at h
      rcases List.mem_cons.mp h with h | h
      · exact Or.inl (h ▸ List.mem_cons_self q rest)
      · rcases ih h with h | h
        · exact Or.inl (List.mem_cons_of_mem _ h)
        · exact Or.inr h

theorem pyMaxBy_mem {α : Type} {key : α → ℚ} {l : List α} {x : α}
    (h : pyMaxBy key l = some x) : x ∈ l := by
  match l with
  | [] => simp [pyMaxBy] at h
  | y :: ys =>
    rw [pyMaxBy] at h
    have hx := Option.some.inj h
    clear h
    have : ∀ (xs : List α) (best : α),
        xs.foldl (fun best y => if key best < key y then y else best) best ∈
          best :: xs := by
      intro xs
      induction xs with
      | nil => intro best; simp
      | cons z zs ih =>
        intro best
        rw [List.foldl_cons]
        have h2 := ih (if key best < key z then z else best)
        by_cases hc : key best < key z
        · rw [if_pos hc] at h2 ⊢
          exact List.mem_cons_of_mem best h2
        · rw [if_neg hc] at h2 ⊢
          rcases List.mem_cons.mp h2 with h | h
          · rw [h]
            exact List.mem_cons_self best _
          · exact List.mem_cons_of_mem best (List.mem_cons_of_mem z h)
    rw [← hx]
    exact this ys y

theorem adjustedCandidates_trunc_bounds (cfg : RTConfig) (row : LogRow)
    (hmax : 0 ≤ cfg.maxDuration) :
    ∀ c ∈ adjustedCandidates cfg row, 0 ≤ c.2.2.2 ∧ c.2.2.2 ≤ cfg.maxDuration := by
  intro c hc
  rw [adjustedCandidates, List.mem_filterMap] at hc
  obtain ⟨t, _, hf⟩ := hc
  rcases hd : t.2.2 with _ | d
  · rw [hd] at hf
    simp at hf
  · rw [hd] at hf
    simp only [] at hf
    by_cases h0 : 0 < d
    · rw [if_pos h0] at hf
      have := Option.some.inj hf
      rw [← this]
      simp only [qmin_eq]
      exact ⟨le_min (le_of_lt h0) hmax, min_le_right _ _⟩
    · rw [if_neg h0] at hf
      simp at hf

theorem validCandidates_trunc_bounds (cfg : RTConfig) (row : LogRow)
    (hmax : 0 ≤ cfg.maxDuration) :
    ∀ c ∈ validCandidates cfg row, 0 ≤ c.2.2 ∧ c.2.2 ≤ cfg.maxDuration := by
  intro c hc
  rw [validCandidates, List.mem_filterMap] at hc
  obtain ⟨t, _, hf⟩ := hc
  rcases hd : t.2.2 with _ | d
  · rw [hd] at hf
    simp at hf
  · rw [hd] at hf
    simp only [] at hf
    by_cases h0 : 0 < d
    · rw [if_pos h0] at hf
      have := Option.some.inj hf
      rw [← this]
      simp only [qmin_eq]
      exact ⟨le_min (le_of_lt h0) hmax, min_le_right _ _⟩
    · rw [if_neg h0] at hf
      simp at hf

theorem procSpan_dur_bounds (cfg : RTConfig) (span_list : List SpanInfo)
    (hmax : 0 ≤ cfg.maxDuration) (mm : Maps) (t : String × Int × Option ℚ)
    (hm : ∀ p ∈ mm.dur, 0 ≤ p.2 ∧ p.2 ≤ cfg.maxDuration) :
    ∀ p ∈ (procSpan cfg span_list mm t).dur, 0 ≤ p.2 ∧ p.2 ≤ cfg.maxDuration := by
  intro p hp
  obtain ⟨sid, idx, dopt⟩ := t
  rcases dopt with _ | d
  · exact hm p hp
  · simp only [procSpan] at hp
    by_cases h0 : 0 < d
    · rw [if_pos h0] at hp
      simp only at hp
      rcases mem_setEntry hp with h | h
      · exact hm p h
      · rw [h]
        simp only [qmin_eq]
        exact ⟨le_min (le_of_lt h0) hmax, min_le_right _ _⟩
    · rw [if_neg h0] at hp
      exact hm p hp

theorem foldl_procSpan_dur_bounds (cfg : RTConfig) (span_list : List SpanInfo)
    (hmax : 0 ≤ cfg.maxDuration) :
    ∀ (ts : List (String × Int × Option ℚ)) (mm : Maps),
      (∀ p ∈ mm.dur, 0 ≤ p.2 ∧ p.2 ≤ cfg.maxDuration) →
      ∀ p ∈ (ts.foldl (procSpan cfg span_list) mm).dur,
        0 ≤ p.2 ∧ p.2 ≤ cfg.maxDuration := by
  intro ts
  induction ts with
  | nil => intro mm hm; exact hm
  | cons t ts ih =>
    intro mm hm
    rw [List.foldl_cons]
    exact ih _ (procSpan_dur_bounds cfg span_list hmax mm t hm)

theorem procRow_dur_bounds (cfg : RTConfig) (hmax : 0 ≤ cfg.maxDuration)
    (m : Maps) (row : LogRow)
    (hm : ∀ p ∈ m.dur, 0 ≤ p.2 ∧ p.2 ≤ cfg.maxDuration) :
    ∀ p ∈ (procRow cfg m row).dur, 0 ≤ p.2 ∧ p.2 ≤ cfg.maxDuration := by
  intro p hp
  rw [procRow] at hp
  by_cases hlen : (row.span_id.length ≠ row.exclusive_duration.length ∨
      row.span_id.length ≠ row.span_index.length)
  · rw [if_pos hlen] at hp
    exact hm p hp
  · rw [if_neg hlen] at hp
    by_cases htop : cfg.only_top1_per_trace = true
    · rw [if_pos htop] at hp
      by_cases hma : (cfg.minus_average = true ∧ cfg.span_average_durations ≠ [])
      · rw [if_pos hma] at hp
        rcases hmb : pyMaxBy (fun q => q.2.2.1) (adjustedCandidates cfg row)
          with _ | top
        · rw [hmb] at hp
          exact hm p hp
        · rw [hmb] at hp
          simp only at hp
          rcases mem_setEntry hp with h | h
          · exact hm p h
          · rw [h]
            exact adjustedCandidates_trunc_bounds cfg row hmax top
              (pyMaxBy_mem hmb)
      · rw [if_neg hma] at hp
        rcases hmb : pyMaxBy (fun q => q.2.2) (validCandidates cfg row)
          with _ | top
        · rw [hmb] at hp
          exact hm p hp
        · rw [hmb] at hp
          simp only at hp
          rcases mem_setEntry hp with h | h
          · exact hm p h
          · rw [h]
            exact validCandidates_trunc_bounds cfg row hmax top
              (pyMaxBy_mem hmb)
    · rw [if_neg htop] at hp
      exact foldl_procSpan_dur_bounds cfg row.span_list hmax _ m hm p hp

theorem buildMappings_dur_bounds (cfg : RTConfig) (logs : List LogRow)
    (hmax : 0 ≤ cfg.maxDuration) :
    ∀ p ∈ (buildMappings cfg logs).dur, 0 ≤ p.2 ∧ p.2 ≤ cfg.maxDuration := by
  rw [buildMappings]
  have : ∀ (rows : List LogRow) (m : Maps),
      (∀ p ∈ m.dur, 0 ≤ p.2 ∧ p.2 ≤ cfg.maxDuration) →
      ∀ p ∈ (rows.foldl (procRow cfg) m).dur, 0 ≤ p.2 ∧ p.2 ≤ cfg.maxDuration := by
    intro rows
    induction rows with
    | nil => intro m hm; exact hm
    | cons r rs ih =>
      intro m hm
      rw [List.foldl_cons]
      exact ih _ (procRow_dur_bounds cfg hmax m r hm)
  exact this logs ⟨[], []⟩ (by intro p hp; simp at hp)

theorem normAdj_bounds (averages : List (String × ℚ)) (maxD : ℚ)
    (names : Option (String × String)) (trunc : ℚ) (hmax : 0 ≤ maxD)
    (ht : 0 ≤ trunc ∧ trunc ≤ maxD) :
    0 ≤ normAdj averages maxD names trunc ∧
      normAdj averages maxD names trunc ≤ maxD := by
  rcases names with _ | nm
  · exact ht
  · rw [normAdj]
    rcases averages.lookup (mkKey nm.1 nm.2) with _ | avg
    · exact ht
    · simp only [qmin_eq, qmax_eq]
      exact ⟨le_min (le_max_left 0 _) hmax, min_le_right _ _⟩

theorem adjust_durations_bounds (averages : List (String × ℚ)) (maxD : ℚ)
    (svc : List (String × (String × String))) (dur : List (String × ℚ))
    (hmax : 0 ≤ maxD) (hd : ∀ p ∈ dur, 0 ≤ p.2 ∧ p.2 ≤ maxD) :
    ∀ p ∈ adjust_durations averages maxD svc dur, 0 ≤ p.2 ∧ p.2 ≤ maxD := by
  intro p hp
  rw [adjust_durations, List.mem_map] at hp
  obtain ⟨q, hq, rfl⟩ := hp
  exact normAdj_bounds averages maxD _ q.2 hmax (hd q hq)

/-- C9 (amended): in the anomaly-window selection path every ranked
duration — raw-truncated or baseline-adjusted — lies within
`[0, MAX_DURATION]`.  (The reference-window baseline path does not clamp;
see the counterexample.) -/
theorem c9_selection_durations_clamped (cfg : RTConfig)
    (idents : List (String × (String × String))) (logs : List LogRow)
    (hmax : 0 ≤ cfg.maxDuration) :
    ∀ p ∈ adjustedStage cfg idents logs, 0 ≤ p.2 ∧ p.2 ≤ cfg.maxDuration := by
  intro p hp
  simp only [adjustedStage] at hp
  have hbase := buildMappings_dur_bounds cfg logs hmax
  by_cases hnil : (buildMappings cfg logs).dur = []
  · rw [if_pos hnil] at hp
    simp at hp
  · rw [if_neg hnil] at hp
    by_cases hma : (cfg.minus_average = true ∧ cfg.span_average_durations ≠ [])
    · rw [if_pos hma] at hp
      rcases hstrat : chooseStrategy (buildMappings cfg logs).dur.length
          (buildMappings cfg logs).svc.length with _ | _
      · rw [hstrat] at hp
        exact adjust_durations_bounds _ _ _ _ hmax hbase p hp
      · rw [hstrat] at hp
        rw [adjust_durations_with_span_average] at hp
        exact adjust_durations_bounds _ _ _ _ hmax hbase p hp
    · rw [if_neg hma] at hp
      rw [List.mem_map] at hp
      obtain ⟨q, hq, rfl⟩ := hp
      simp only [qmin_eq]
      exact ⟨le_min (hbase q hq).1 hmax, min_le_right _ _⟩

/-- Witness for `c9_selection_durations_clamped` at a concrete run with
normalization active: the adjusted entry of span `x` (raw 10, baseline 2)
lies within the clamp interval. -/
theorem c9_witness : 0 ≤ (8 : ℚ) ∧ (8 : ℚ) ≤ (5000000 : ℚ) :=
  c9_selection_durations_clamped
    ⟨true, false, [(mkKey "s" "n", 2)], 5000000, mkRat 19 20, 2000⟩
    [("x", ("s", "n"))]
    [⟨["x", "y"], [0, 1], [some 10, some 6000000], [⟨"s", "n"⟩, ⟨"s", "m"⟩]⟩]
    (by decide) ("x", 8) (by decide)

/-- Counterexample to C9 as stated: the baseline-average path performs no
clamping.  A reference-window span with duration `MAX_DURATION + 1 =
5000001` is collected as-is, and the resulting baseline average also
exceeds `MAX_DURATION = 5000000`. -/
theorem c9_baseline_unclamped_counterexample :
    ("x", (5000001 : ℚ)) ∈ baselineCollect [⟨["x"], [some 5000001]⟩] ∧
    calculate_span_averages 3000 [("x", ("s", "n"))] [⟨["x"], [some 5000001]⟩] =
      [(mkKey "s" "n", 5000001)] ∧
    ¬ ((5000001 : ℚ) ≤ 5000000) := by
  refine ⟨by decide, by decide, by decide⟩

theorem keysOf_map_value {β γ : Type} (f : String × β → γ) (m : List (String × β)) :
    keysOf (m.map (fun p => (p.1, f p))) = keysOf m := by
  simp [keysOf, List.map_map, Function.comp]

theorem procSpan_dur_nodup (cfg : RTConfig) (span_list : List SpanInfo)
    (mm : Maps) (t : String × Int × Option ℚ)
    (h : (keysOf mm.dur).Nodup) :
    (keysOf (procSpan cfg span_list mm t).dur).Nodup := by
  obtain ⟨sid, idx, dopt⟩ := t
  rcases dopt with _ | d
  · exact h
  · simp only [procSpan]
    by_cases h0 : 0 < d
    · rw [if_pos h0]
      exact keysOf_setEntry_nodup _ _ _ h
    · rw [if_neg h0]
      exact h

theorem procRow_dur_nodup (cfg : RTConfig) (m : Maps) (row : LogRow)
    (h : (keysOf m.dur).Nodup) : (keysOf (procRow cfg m row).dur).Nodup := by
  rw [procRow]
  by_cases hlen : (row.span_id.length ≠ row.exclusive_duration.length ∨
      row.span_id.length ≠ row.span_index.length)
  · rw [if_pos hlen]
    exact h
  · rw [if_neg hlen]
    by_cases htop : cfg.only_top1_per_trace = true
    · rw [if_pos htop]
      by_cases hma : (cfg.minus_average = true ∧ cfg.span_average_durations ≠ [])
      · rw [if_pos hma]
        rcases hmb : pyMaxBy (fun q => q.2.2.1) (adjustedCandidates cfg row)
          with _ | top
        · rw [hmb]
          exact h
        · rw [hmb]
          exact keysOf_setEntry_nodup _ _ _ h
      · rw [if_neg hma]
        rcases hmb : pyMaxBy (fun q => q.2.2) (validCandidates cfg row)
          with _ | top
        · rw [hmb]
          exact h
        · rw [hmb]
          exact keysOf_setEntry_nodup _ _ _ h
    · rw [if_neg htop]
      have : ∀ (ts : List (String × Int × Option ℚ)) (mm : Maps),
          (keysOf mm.dur).Nodup →
          (keysOf (ts.foldl (procSpan cfg row.span_list) mm).dur).Nodup := by
        intro ts
        induction ts with
        | nil => intro mm hm; exact hm
        | cons t ts ih =>
          intro mm hm
          rw [List.foldl_cons]
          exact ih _ (procSpan_dur_nodup cfg row.span_list mm t hm)
      exact this _ m h

theorem buildMappings_dur_nodup (cfg : RTConfig) (logs : List LogRow) :
    (keysOf (buildMappings cfg logs).dur).Nodup := by
  rw [buildMappings]
  have : ∀ (rows : List LogRow) (m : Maps), (keysOf m.dur).Nodup →
      (keysOf (rows.foldl (procRow cfg) m).dur).Nodup := by
    intro rows
    induction rows with
    | nil => intro m hm; exact hm
    | cons r rs ih =>
      intro m hm
      rw [List.foldl_cons]
      exact ih _ (procRow_dur_nodup cfg m r hm)
  exact this logs ⟨[], []⟩ (by simp [keysOf])

theorem keysOf_adjust_durations (averages : List (String × ℚ)) (maxD : ℚ)
    (svc : List (String × (String × String))) (dur : List (String × ℚ)) :
    keysOf (adjust_durations averages maxD svc dur) = keysOf dur :=
  keysOf_map_value _ dur

theorem adjustedStage_keys_nodup (cfg : RTConfig)
    (idents : List (String × (String × String))) (logs : List LogRow) :
    (keysOf (adjustedStage cfg idents logs)).Nodup := by
  simp only [adjustedStage]
  have hnd := buildMappings_dur_nodup cfg logs
  by_cases hnil : (buildMappings cfg logs).dur = []
  · rw [if_pos hnil]
    simp [keysOf]
  · rw [if_neg hnil]
    by_cases hma : (cfg.minus_average = true ∧ cfg.span_average_durations ≠ [])
    · rw [if_pos hma]
      rcases hstrat : chooseStrategy (buildMappings cfg logs).dur.length
          (buildMappings cfg logs).svc.length with _ | _
      · simpa [keysOf_adjust_durations] using hnd
      · simpa [adjust_durations_with_span_average, keysOf_adjust_durations]
          using hnd
    · rw [if_neg hma]
      rw [keysOf_map_value (fun p => qmin p.2 cfg.maxDuration)]
      exact hnd

theorem takeUntilTarget_isTake (target : ℚ) :
    ∀ (l : List (String × ℚ)) (acc : ℚ),
      ∃ k, k ≤ l.length ∧ takeUntilTarget target l acc = (l.take k).map (·.1) := by
  intro l
  induction l with
  | nil => intro acc; exact ⟨0, le_refl _, rfl⟩
  | cons p rest ih =>
    intro acc
    by_cases hc : target ≤ qadd acc p.2
    · refine ⟨1, by simp, ?_⟩
      simp [takeUntilTarget, hc]
    · obtain ⟨k', hk', heq⟩ := ih (qadd acc p.2)
      refine ⟨k' + 1, by simpa using hk', ?_⟩
      rw [takeUntilTarget, if_neg hc, List.take_succ_cons, List.map_cons]
      exact congrArg _ heq

theorem rankAndSelect_nodup (percentile : ℚ) (adjusted : List (String × ℚ))
    (h : (keysOf adjusted).Nodup) : (rankAndSelect percentile adjusted).Nodup := by
  simp only [rankAndSelect]
  by_cases h0 : qsum ((pySortPairs adjusted).map (·.2)) = 0
  · rw [if_pos h0]
    exact List.nodup_nil
  · rw [if_neg h0]
    obtain ⟨k, _, heq⟩ :=
      takeUntilTarget_isTake
        (qmul (qsum ((pySortPairs adjusted).map (·.2))) percentile)
        (pySortPairs adjusted) 0
    rw [heq, List.map_take]
    have hperm : (pySortPairs adjusted).Perm adjusted :=
      List.perm_insertionSort _ adjusted
    have hkeys : ((pySortPairs adjusted).map (·.1)).Nodup :=
      ((hperm.map (·.1)).nodup_iff).mpr (by simpa [keysOf] using h)
    exact List.Nodup.sublist (List.take_sublist _ _) hkeys

/-- C10: the list returned by the percentile selector never contains a
spanId twice — durations are keyed by spanId before ranking, a later
occurrence of a spanId overwriting an earlier one, as the concrete repeated
row `x` (durations 5 then 7) illustrates. -/
theorem c10_no_duplicate_span_ids :
    (∀ (cfg : RTConfig) (idents : List (String × (String × String)))
        (logs : List LogRow), (find_top_95_percent_spans cfg idents logs).Nodup) ∧
    find_top_95_percent_spans ⟨false, false, [], 5000000, mkRat 19 20, 2000⟩ []
        [⟨["x", "x"], [0, 1], [some 5, some 7], [⟨"s", "n"⟩, ⟨"s", "m"⟩]⟩] =
      ["x"] := by
  constructor
  · intro cfg idents logs
    exact rankAndSelect_nodup cfg.percentile (adjustedStage cfg idents logs)
      (adjustedStage_keys_nodup cfg idents logs)
  · decide

theorem pyMaxBy_foldl_spec {α : Type} (key : α → ℚ) :
    ∀ (xs : List α) (best : α),
      key best ≤ key (xs.foldl (fun b y => if key b < key y then y else b) best) ∧
      (∀ z ∈ xs,
        key z ≤ key (xs.foldl (fun b y => if key b < key y then y else b) best)) ∧
      (xs.foldl (fun b y => if key b < key y then y else b) best = best ∨
        (key best <
            key (xs.foldl (fun b y => if key b < key y then y else b) best) ∧
          ∃ i hi, xs.get ⟨i, hi⟩ =
              xs.foldl (fun b y => if key b < key y then y else b) best ∧
            ∀ z ∈ xs.take i,
              key z <
                key (xs.foldl (fun b y => if key b < key y then y else b) best))) := by
  intro xs
  induction xs with
  | nil =>
    intro best
    refine ⟨le_refl _, by simp, Or.inl rfl⟩
  | cons z zs ih =>
    intro best
    rw [List.foldl_cons]
    by_cases hc : key best < key z
    · rw [if_pos hc]
      obtain ⟨h1, h2, h3⟩ := ih z
      refine ⟨le_of_lt (lt_of_lt_of_le hc h1), ?_, ?_⟩
      · intro w hw
        rcases List.mem_cons.mp hw with hw | hw
        · rw [hw]
          exact h1
        · exact h2 w hw
      · rcases h3 with h3 | ⟨h3, i, hi, hgi, hpre⟩
        · right
          refine ⟨by rw [h3]; exact hc, 0, by simp, by simpa using h3.symm, ?_⟩
          simp
        · right
          refine ⟨lt_trans hc h3, i + 1, by simpa using hi, ?_, ?_⟩
          · simpa using hgi
          · intro w hw
            rw [List.take_succ_cons] at hw
            rcases List.mem_cons.mp hw with hw | hw
            · rw [hw]
              exact h3
            · exact hpre w hw
    · rw [if_neg hc]
      push_neg at hc
      obtain ⟨h1, h2, h3⟩ := ih best
      refine ⟨h1, ?_, ?_⟩
      · intro w hw
        rcases List.mem_cons.mp hw with hw | hw
        · rw [hw]
          exact le_trans hc h1
        · exact h2 w hw
      · rcases h3 with h3 | ⟨h3, i, hi, hgi, hpre⟩
        · exact Or.inl h3
        · right
          refine ⟨h3, i + 1, by simpa using hi, by simpa using hgi, ?_⟩
          intro w hw
          rw [List.take_succ_cons] at hw
          rcases List.mem_cons.mp hw with hw | hw
          · rw [hw]
            exact lt_of_le_of_lt hc h3
          · exact hpre w hw

theorem pyMaxBy_first_max {α : Type} (key : α → ℚ) (l : List α) (r : α)
    (h : pyMaxBy key l = some r) :
    (∀ z ∈ l, key z ≤ key r) ∧
      ∃ i hi, l.get ⟨i, hi⟩ = r ∧ ∀ z ∈ l.take i, key z < key r := by
  match l with
  | [] => simp [pyMaxBy] at h
  | y :: ys =>
    rw [pyMaxBy] at h
    have hr := Option.some.inj h
    obtain ⟨h1, h2, h3⟩ := pyMaxBy_foldl_spec key ys y
    rw [hr] at h1 h2 h3
    constructor
    · intro z hz
      rcases List.mem_cons.mp hz with hz | hz
      · rw [hz]
        exact h1
      · exact h2 z hz
    · rcases h3 with h3 | ⟨h3, i, hi, hgi, hpre⟩
      · exact ⟨0, by simp, by simpa using h3.symm, by simp⟩
      · refine ⟨i + 1, by simpa using hi, by simpa using hgi, ?_⟩
        intro z hz
        rw [List.take_succ_cons] at hz
        rcases List.mem_cons.mp hz with hz | hz
        · rw [hz]
          exact h3
        · exact hpre z hz

/-- C6 (amended): with `onlyTopPerTrace` and normalization both enabled,
baseline subtraction is applied to every span of the trace row before the
top-1 choice, and the selected span is the first, in query-row order, of
those attaining the maximum adjusted (not raw) duration; ties are broken by
first occurrence in the row, not by smallest spanId.  On the example row
with (raw, baseline) = A(10,2), B(12,10), C(8,1) the adjusted durations are
8, 2, 7 and span A is selected (with its truncated raw duration 10 stored). -/
theorem c6_top1_adjusted_selection :
    (∀ (cfg : RTConfig) (row : LogRow) (top : String × Int × ℚ × ℚ),
        pyMaxBy (fun q => q.2.2.1) (adjustedCandidates cfg row) = some top →
        top ∈ adjustedCandidates cfg row ∧
        (∀ c ∈ adjustedCandidates cfg row, c.2.2.1 ≤ top.2.2.1) ∧
        ∃ i hi, (adjustedCandidates cfg row).get ⟨i, hi⟩ = top ∧
          ∀ c ∈ (adjustedCandidates cfg row).take i, c.2.2.1 < top.2.2.1) ∧
    (adjustedCandidates exCfgTop1 exRowABC).map (fun c => (c.1, c.2.2.1)) =
      [("A", 8), ("B", 2), ("C", 7)] ∧
    (buildMappings exCfgTop1 [exRowABC]).dur = [("A", 10)] := by
  refine ⟨?_, by decide, by decide⟩
  intro cfg row top h
  have hspec := pyMaxBy_first_max (fun q => q.2.2.1)
    (adjustedCandidates cfg row) top h
  exact ⟨pyMaxBy_mem h, hspec.1, hspec.2⟩

/-- Witness for `c6_top1_adjusted_selection`: on the A/B/C example the
computed top span is A with adjusted duration 8, and it dominates every
candidate. -/
theorem c6_witness :
    ("A", (0 : Int), (8 : ℚ), (10 : ℚ)) ∈ adjustedCandidates exCfgTop1 exRowABC ∧
    ∀ c ∈ adjustedCandidates exCfgTop1 exRowABC, c.2.2.1 ≤ (8 : ℚ) := by
  have h := (c6_top1_adjusted_selection.1 exCfgTop1 exRowABC
    ("A", (0 : Int), (8 : ℚ), (10 : ℚ)) (by decide))
  exact ⟨h.1, h.2.1⟩

/-- Counterexample to C6 as stated: on a trace row where spans `b` and `a`
tie at adjusted duration 7 with `b` first in the query row, the code
selects `b` (Python `max` keeps the first maximal element), not the
lexicographically smallest spanId `a`. -/
theorem c6_tie_counterexample :
    (pyMaxBy (fun q => q.2.2.1) (adjustedCandidates exCfgTop1 exRowTie)).map
        (fun q => q.1) = some "b" ∧
    (adjustedCandidates exCfgTop1 exRowTie).map (fun c => (c.1, c.2.2.1)) =
      [("b", 7), ("a", 7)] ∧
    (buildMappings exCfgTop1 [exRowTie]).dur = [("b", 7)] ∧
    ("a" : String) < "b" := by
  refine ⟨by decide, by decide, by decide, ?_⟩
  rw [String.lt_iff_toList_lt]
  decide

theorem groupByTrace_entries (spans : List ESpan) :
    ∀ (acc : List (String × List ESpan)) (t : String), t ≠ "" →
      entriesOf t
          (spans.foldl
            (fun acc s => if s.traceId ≠ "" then addEntry acc s.traceId s else acc)
            acc) =
        entriesOf t acc ++ spans.filter (fun s => s.traceId == t) := by
  induction spans with
  | nil =>
    intro acc t ht
    simp
  | cons s rest ih =>
    intro acc t ht
    rw [List.foldl_cons, List.filter_cons]
    by_cases hs : s.traceId ≠ ""
    · rw [if_pos hs]
      rw [ih _ t ht, entriesOf_addEntry]
      by_cases hts : t = s.traceId
      · rw [if_pos hts, if_pos (by simpa using hts.symm), List.append_assoc]
        simp
      · rw [if_neg hts, if_neg (by simpa using fun hc => hts hc.symm)]
    · rw [if_neg hs]
      push_neg at hs
      rw [ih _ t ht, if_neg (by simp [hs]; exact fun hc => ht hc.symm)]

theorem groupByTrace_lookup (spans : List ESpan) (t : String) (ht : t ≠ "")
    (hne : spans.filter (fun s => s.traceId == t) ≠ []) :
    (groupByTrace spans).lookup t =
      some (spans.filter (fun s => s.traceId == t)) := by
  have h := groupByTrace_entries spans [] t ht
  rw [groupByTrace]
  simp only [entriesOf, List.lookup_nil, Option.getD_none, List.nil_append] at h
  rcases hl : (spans.foldl
      (fun acc s => if s.traceId ≠ "" then addEntry acc s.traceId s else acc)
      []).lookup t with _ | g
  · rw [hl] at h
    simp only [entriesOf, hl, Option.getD_none] at h
    exact absurd h.symm hne
  · rw [hl] at h
    simp only [entriesOf, hl, Option.getD_some] at h
    rw [hl, h]

theorem buildMaps_none_of_unparsable :
    ∀ (g : List ESpan) (st : List (String × Int))
      (ch : List (String × List String)) (s : ESpan), s ∈ g →
      pyInt s.statusCode = none → buildMaps g st ch = none := by
  intro g
  induction g with
  | nil =>
    intro st ch s hs
    simp at hs
  | cons x rest ih =>
    intro st ch s hs hbad
    rcases List.mem_cons.mp hs with hs | hs
    · rw [buildMaps, ← hs, hbad]
    · rw [buildMaps]
      rcases hx : pyInt x.statusCode with _ | v
    

      · rfl
      · exact ih _ _ s hs hbad

theorem process_one_trace_log_none (g : List ESpan) (s : ESpan) (hs : s ∈ g)
    (hbad : pyInt s.statusCode = none) : process_one_trace_log g = none := by
  rw [process_one_trace_log, buildMaps_none_of_unparsable g [] [] s hs hbad]

theorem processGroups_none :
    ∀ (gs : List (String × List ESpan)),
      (∃ g ∈ gs, process_one_trace_log g.2 = none) → processGroups gs = none := by
  intro gs
  induction gs with
  | nil =>
    intro h
    simp at h
  | cons g rest ih =>
    intro h
    rw [processGroups]
    obtain ⟨g', hg', hnone⟩ := h
    rcases List.mem_cons.mp hg' with hg' | hg'
    · rw [← hg', hnone]
    · rcases hp : process_one_trace_log g.2 with _ | ids
      · rfl
      · rw [ih ⟨g', hg', hnone⟩]

/-- C3 (amended): a span whose `statusCode` cannot be parsed as an integer
makes the whole call fail (`int(...)` raises `ValueError`, which nothing in
`process_one_trace_log` or `find_root_cause_spans` catches), rather than
being treated as a non-error span; empty input still yields an empty list
rather than an error. -/
theorem c3_unparsable_status_fatal :
    find_root_cause_spans [] = some [] ∧
    ∀ (spans : List ESpan) (s : ESpan), s ∈ spans →
      pyInt s.statusCode = none → s.traceId ≠ "" →
      find_root_cause_spans spans = none := by
  constructor
  · rfl
  · intro spans s hs hbad ht
    have hmem : s ∈ spans.filter (fun x => x.traceId == s.traceId) :=
      List.mem_filter.mpr ⟨hs, by simp⟩
    have hlook := groupByTrace_lookup spans s.traceId ht
      (by intro hc; rw [hc] at hmem; simp at hmem)
    rw [find_root_cause_spans]
    apply processGroups_none
    refine ⟨(s.traceId, spans.filter (fun x => x.traceId == s.traceId)),
      mem_of_lookup_eq_some hlook, ?_⟩
    exact process_one_trace_log_none _ s hmem hbad

/-- Counterexample to C3 as stated: with an unparsable `statusCode` present
the call returns no result at all (the `ValueError` escapes), instead of
returning the root-cause set `["Y"]` computed from the remaining spans. -/
theorem c3_unparsable_counterexample :
    find_root_cause_spans [⟨"X", "", "abc", "t"⟩, ⟨"Y", "", "2", "t"⟩] = none ∧
    find_root_cause_spans [⟨"Y", "", "2", "t"⟩] = some ["Y"] := by
  constructor <;> decide

/-- Witness for `c3_unparsable_status_fatal`: the empty call succeeds with
an empty list, and one unparsable span makes a concrete call fail. -/
theorem c3_witness :
    find_root_cause_spans [] = some [] ∧
    find_root_cause_spans [⟨"X", "", "abc", "t"⟩] = none := by
  refine ⟨c3_unparsable_status_fatal.1, ?_⟩
  exact c3_unparsable_status_fatal.2 [⟨"X", "", "abc", "t"⟩]
    ⟨"X", "", "abc", "t"⟩ (by decide) (by decide) (by decide)

theorem setEntry_append_fresh {β : Type} (m : List (String × β)) (k : String)
    (v : β) (h : k ∉ keysOf m) : setEntry m k v = m ++ [(k, v)] := by
  induction m with
  | nil => rfl
  | cons p rest ih =>
    have hk : p.1 ≠ k := by
      intro hc
      exact h (by simp [keysOf, hc])
    rw [setEntry, if_neg hk, List.cons_append]
    exact congrArg _ (ih (fun hc => h (by simp [keysOf] at hc ⊢; exact Or.inr hc)))

theorem keysOf_append {β : Type} (m m' : List (String × β)) :
    keysOf (m ++ m') = keysOf m ++ keysOf m' := by
  simp [keysOf]

theorem buildMaps_spec :
    ∀ (g : List ESpan) (st : List (String × Int))
      (ch : List (String × List String)),
      (∀ x ∈ g, (pyInt x.statusCode).isSome) →
      (∀ x ∈ g, x.spanId ∉ keysOf st) →
      (g.map (·.spanId)).Nodup →
      ∃ ch', buildMaps g st ch =
          some (st ++ g.map (fun s => (s.spanId, statusD s)), ch') ∧
        ∀ sid, entriesOf sid ch' =
          entriesOf sid ch ++
            (g.filter
              (fun c => c.parentSpanId != "" && c.parentSpanId == sid)).map
              (·.spanId) := by
  intro g
  induction g with
  | nil =>
    intro st ch _ _ _
    exact ⟨ch, by simp [buildMaps], by simp⟩
  | cons x rest ih =>
    intro st ch hparse hfresh hnodup
    obtain ⟨v, hv⟩ := Option.isSome_iff_exists.mp (hparse x (by simp))
    have hvs : v = statusD x := by
      rw [statusD, hv]
      rfl
    rw [List.map_cons, List.nodup_cons] at hnodup
    have hst2 : setEntry st x.spanId v = st ++ [(x.spanId, v)] :=
      setEntry_append_fresh st x.spanId v (hfresh x (by simp))
    have hfresh2 : ∀ y ∈ rest, y.spanId ∉ keysOf (setEntry st x.spanId v) := by
      intro y hy
      rw [hst2, keysOf_append]
      intro hc
      rcases List.mem_append.mp hc with hc | hc
      · exact hfresh y (by simp [hy]) hc
      · simp [keysOf] at hc
        exact hnodup.1 (hc ▸ List.mem_map.mpr ⟨y, hy, rfl⟩)
    obtain ⟨ch', hbm, hent⟩ := ih (setEntry st x.spanId v)
      (if x.parentSpanId ≠ "" then addEntry ch x.parentSpanId x.spanId else ch)
      (fun y hy => hparse y (by simp [hy])) hfresh2 hnodup.2
    refine ⟨ch', ?_, ?_⟩
    · rw [buildMaps, hv]
      show buildMaps rest (setEntry st x.spanId v)
          (if x.parentSpanId ≠ "" then addEntry ch x.parentSpanId x.spanId
           else ch) = _
      rw [hbm, hst2, List.map_cons, hvs, List.append_assoc,
        List.singleton_append]
    · intro sid
      rw [hent sid, List.filter_cons]
      by_cases hpar : x.parentSpanId ≠ ""
      · rw [if_pos hpar]
        rw [entriesOf_addEntry]
        by_cases hsid : sid = x.parentSpanId
        · rw [if_pos hsid,
            if_pos (by
              simp only [Bool.and_eq_true, bne_iff_ne, beq_iff_eq]
              exact ⟨hpar, hsid.symm⟩),
            List.map_cons, List.append_assoc, List.singleton_append]
        · rw [if_neg hsid,
            if_neg (by
              simp only [Bool.and_eq_true, bne_iff_ne, beq_iff_eq, not_and]
              exact fun _ hc => hsid hc.symm)]
      · rw [if_neg hpar]
        push_neg at hpar
        rw [if_neg (by simp [hpar])]

theorem status_lookup (g : List ESpan) (hnodup : (g.map (·.spanId)).Nodup)
    (c : ESpan) (hc : c ∈ g) :
    (g.map (fun s => (s.spanId, statusD s))).lookup c.spanId =
      some (statusD c) := by
  apply lookup_eq_some_of_mem
  · have : keysOf (g.map (fun s => (s.spanId, statusD s))) = g.map (·.spanId) := by
      simp [keysOf, List.map_map, Function.comp]
    rw [this]
    exact hnodup
  · exact List.mem_map.mpr ⟨c, hc, rfl⟩

theorem process_one_trace_iff (g : List ESpan)
    (hparse : ∀ x ∈ g, (pyInt x.statusCode).isSome)
    (hnodup : (g.map (·.spanId)).Nodup) :
    ∃ out, process_one_trace_log g = some out ∧
      ∀ sid, sid ∈ out ↔
        (∃ s ∈ g, s.spanId = sid ∧ 1 < statusD s) ∧
        ∀ c ∈ g, c.parentSpanId ≠ "" → c.parentSpanId = sid →
          statusD c ≤ 1 := by
  obtain ⟨ch', hbm, hent⟩ := buildMaps_spec g [] [] hparse
    (by simp [keysOf]) hnodup
  rw [List.nil_append] at hbm
  have hent' : ∀ sid, entriesOf sid ch' =
      (g.filter (fun c => c.parentSpanId != "" && c.parentSpanId == sid)).map
        (·.spanId) := by
    intro sid
    rw [hent sid]
    simp [entriesOf]
  refine ⟨_, by rw [process_one_trace_log, hbm], ?_⟩
  intro sid
  rw [List.mem_filter]
  constructor
  · rintro ⟨herr, hall⟩
    constructor
    · rw [List.mem_map] at herr
      obtain ⟨p, hp, hps⟩ := herr
      rw [List.mem_filter] at hp
      obtain ⟨hp, hgt⟩ := hp
      rw [List.mem_map] at hp
      obtain ⟨s, hs, hsp⟩ := hp
      refine ⟨s, hs, ?_, ?_⟩
      · rw [← hps, ← hsp]
      · have : (1 : Int) < p.2 := by simpa using hgt
        rw [← hsp] at this
        simpa using this
    · intro c hc hcpar hcsid
      rw [List.all_eq_true] at hall
      have hcmem : c.spanId ∈ entriesOf sid ch' := by
        rw [hent' sid]
        refine List.mem_map.mpr ⟨c, ?_, rfl⟩
        rw [List.mem_filter]
        refine ⟨hc, ?_⟩
        simp only [Bool.and_eq_true, bne_iff_ne, beq_iff_eq]
        exact ⟨hcpar, hcsid⟩
      have := hall c.spanId hcmem
      rw [status_lookup g hnodup c hc] at this
      simpa using this
  · rintro ⟨⟨s, hs, hsid, hgt⟩, hchild⟩
    constructor
    · rw [List.mem_map]
      refine ⟨(s.spanId, statusD s), ?_, hsid⟩
      rw [List.mem_filter]
      exact ⟨List.mem_map.mpr ⟨s, hs, rfl⟩, by simpa using hgt⟩
    · rw [List.all_eq_true]
      intro c' hc'
      rw [hent' sid] at hc'
      rw [List.mem_map] at hc'
      obtain ⟨c, hc, hcs⟩ := hc'
      rw [List.mem_filter] at hc
      obtain ⟨hc, hcond⟩ := hc
      simp only [Bool.and_eq_true, bne_iff_ne, beq_iff_eq] at hcond
      rw [← hcs, status_lookup g hnodup c hc]
      simpa using hchild c hc hcond.1 hcond.2

theorem mem_addEntry {α : Type} {m : List (String × List α)} {k : String}
    {v : α} {q : String × List α} (h : q ∈ addEntry m k v) :
    (∃ p ∈ m, q = p ∨ q = (p.1, p.2 ++ [v])) ∨ q = (k, [v]) := by
  induction m with
  | nil => simpa [addEntry] using h
  | cons p rest ih =>
    by_cases hp : p.1 = k
    · rw [addEntry, if_pos hp] at h
      rcases List.mem_cons.mp h with h | h
      · exact Or.inl ⟨p, by simp, Or.inr h⟩
      · exact Or.inl ⟨q, by simp [h], Or.inl rfl⟩
    · rw [addEntry, if_neg hp] at h
      rcases List.mem_cons.mp h with h | h
      · exact Or.inl ⟨p, by simp, Or.inl h⟩
      · rcases ih h with ⟨p', hp', hq⟩ | hq
        · exact Or.inl ⟨p', by simp [hp'], hq⟩
        · exact Or.inr hq

theorem keysOf_addEntry_nodup {α : Type} (m : List (String × List α))
    (k : String) (v : α) (h : (keysOf m).Nodup) :
    (keysOf (addEntry m k v)).Nodup := by
  rw [keysOf_addEntry]
  by_cases hk : k ∈ keysOf m
  · rwa [if_pos hk]
  · rw [if_neg hk]
    refine List.Nodup.append h (List.nodup_singleton k) ?_
    intro a ha hb
    rw [List.mem_singleton] at hb
    exact hk (hb ▸ ha)

theorem groupByTrace_keys_nodup (spans : List ESpan) :
    (keysOf (groupByTrace spans)).Nodup := by
  rw [groupByTrace]
  have : ∀ (rows : List ESpan) (acc : List (String × List ESpan)),
      (keysOf acc).Nodup →
      (keysOf (rows.foldl
        (fun acc s => if s.traceId ≠ "" then addEntry acc s.traceId s else acc)
        acc)).Nodup := by
    intro rows
    induction rows with
    | nil => intro acc h; exact h
    | cons s rest ih =>
      intro acc h
      rw [List.foldl_cons]
      by_cases hs : s.traceId ≠ ""
      · rw [if_pos hs]
        exact ih _ (keysOf_addEntry_nodup _ _ _ h)
      · rw [if_neg hs]
        exact ih _ h
  exact this spans [] (by simp [keysOf])

theorem groupByTrace_key_ne (spans : List ESpan) :
    ∀ p ∈ groupByTrace spans, p.1 ≠ "" := by
  rw [groupByTrace]
  have : ∀ (rows : List ESpan) (acc : List (String × List ESpan)),
      (∀ p ∈ acc, p.1 ≠ "") →
      ∀ p ∈ rows.foldl
        (fun acc s => if s.traceId ≠ "" then addEntry acc s.traceId s else acc)
        acc, p.1 ≠ "" := by
    intro rows
    induction rows with
    | nil => intro acc h; exact h
    | cons s rest ih =>
      intro acc h
      rw [List.foldl_cons]
      by_cases hs : s.traceId ≠ ""
      · rw [if_pos hs]
        refine ih _ ?_
        intro p hp
        rcases mem_addEntry hp with ⟨p', hp', hq⟩ | hq
        · rcases hq with hq | hq
          · exact hq ▸ h p' hp'
          · rw [hq]
            exact h p' hp'
        · rw [hq]
          exact hs
      · rw [if_neg hs]
        exact ih _ h
  exact this spans [] (by simp)

theorem groupByTrace_mem_char (spans : List ESpan) (t : String)
    (g : List ESpan) (h : (t, g) ∈ groupByTrace spans) :
    t ≠ "" ∧ g = spans.filter (fun s => s.traceId == t) := by
  have ht : t ≠ "" := groupByTrace_key_ne spans (t, g) h
  refine ⟨ht, ?_⟩
  have hlook := lookup_eq_some_of_mem (groupByTrace_keys_nodup spans) h
  have hent := groupByTrace_entries spans [] t ht
  rw [show (spans.foldl
      (fun acc s => if s.traceId ≠ "" then addEntry acc s.traceId s else acc)
      [] : List (String × List ESpan)) = groupByTrace spans from rfl] at hent
  simp only [entriesOf, hlook, Option.getD_some, List.lookup_nil,
    Option.getD_none, List.nil_append] at hent
  exact hent

theorem processGroups_some :
    ∀ (gs : List (String × List ESpan)),
      (∀ g ∈ gs, ∃ ids, process_one_trace_log g.2 = some ids) →
      ∃ out, processGroups gs = some out ∧
        ∀ sid, sid ∈ out ↔ ∃ g ∈ gs, ∃ ids,
          process_one_trace_log g.2 = some ids ∧ sid ∈ ids := by
  intro gs
  induction gs with
  | nil =>
    intro _
    exact ⟨[], rfl, by simp⟩
  | cons g rest ih =>
    intro h
    obtain ⟨ids, hids⟩ := h g (by simp)
    obtain ⟨out', hout', hiff⟩ := ih (fun g' hg' => h g' (by simp [hg']))
    refine ⟨ids ++ out', by rw [processGroups, hids, hout'], ?_⟩
    intro sid
    rw [List.mem_append]
    constructor
    · rintro (hs | hs)
      · exact ⟨g, by simp, ids, hids, hs⟩
      · obtain ⟨g', hg', ids', hids', hs'⟩ := (hiff sid).mp hs
        exact ⟨g', by simp [hg'], ids', hids', hs'⟩
    · rintro ⟨g', hg', ids', hids', hs'⟩
      rcases List.mem_cons.mp hg' with hg' | hg'
      · left
        rw [hg', hids] at hids'
        exact (Option.some.inj hids') ▸ hs'
      · right
        exact (hiff sid).mpr ⟨g', hg', ids', hids', hs'⟩

/-- C1: on spans with parseable statuses, unique spanIds and non-empty
traceIds, `find_root_cause_spans` returns, per trace, exactly the spans with
`statusCode > 1` such that no registered child in the same trace (a span
with a non-empty `parentSpanId` equal to the span's spanId) also has
`statusCode > 1`; in particular an errored span with no registered children
is always returned. -/
theorem c1_error_root_cause (spans : List ESpan)
    (hparse : ∀ s ∈ spans, (pyInt s.statusCode).isSome)
    (hnodup : (spans.map (·.spanId)).Nodup)
    (htrace : ∀ s ∈ spans, s.traceId ≠ "") :
    ∃ out, find_root_cause_spans spans = some out ∧
      ∀ sid, sid ∈ out ↔
        ∃ s ∈ spans, s.spanId = sid ∧ 1 < statusD s ∧
          ∀ c ∈ spans, c.traceId = s.traceId → c.parentSpanId ≠ "" →
            c.parentSpanId = sid → statusD c ≤ 1 := by
  have hgrp : ∀ p ∈ groupByTrace spans,
      p.1 ≠ "" ∧ p.2 = spans.filter (fun s => s.traceId == p.1) := by
    intro p hp
    obtain ⟨t, g⟩ := p
    exact groupByTrace_mem_char spans t g hp
  have hsub : ∀ (t : String),
      (spans.filter (fun s => s.traceId == t)).Sublist spans :=
    fun t => List.filter_sublist spans
  have hiffg : ∀ p ∈ groupByTrace spans,
      ∃ out_g, process_one_trace_log p.2 = some out_g ∧
        ∀ sid, sid ∈ out_g ↔
          (∃ s ∈ p.2, s.spanId = sid ∧ 1 < statusD s) ∧
          ∀ c ∈ p.2, c.parentSpanId ≠ "" → c.parentSpanId = sid →
            statusD c ≤ 1 := by
    intro p hp
    obtain ⟨_, hfil⟩ := hgrp p hp
    refine process_one_trace_iff p.2 ?_ ?_
    · intro x hx
      exact hparse x ((hfil ▸ hsub p.1).subset hx)
    · refine List.Nodup.sublist ?_ hnodup
      rw [hfil]
      exact (hsub p.1).map _
  obtain ⟨out, hout, hiff⟩ := processGroups_some (groupByTrace spans)
    (fun p hp => (hiffg p hp).imp (fun out_g h => h.1))
  refine ⟨out, hout, ?_⟩
  intro sid
  rw [hiff sid]
  constructor
  · rintro ⟨p, hp, ids, hids, hsid⟩
    obtain ⟨out_g, hout_g, hiff_g⟩ := hiffg p hp
    rw [hout_g] at hids
    rw [← Option.some.inj hids] at hsid
    obtain ⟨⟨s, hs, hssid, hsgt⟩, hchild⟩ := (hiff_g sid).mp hsid
    obtain ⟨hne, hfil⟩ := hgrp p hp
    rw [hfil, List.mem_filter] at hs
    obtain ⟨hs, hst⟩ := hs
    rw [beq_iff_eq] at hst
    refine ⟨s, hs, hssid, hsgt, ?_⟩
    intro c hc hct hcp hcs
    refine hchild c ?_ hcp hcs
    rw [hfil, List.mem_filter]
    exact ⟨hc, by rw [beq_iff_eq, hct, hst]⟩
  · rintro ⟨s, hs, hssid, hsgt, hchild⟩
    have ht := htrace s hs
    have hmem : s ∈ spans.filter (fun x => x.traceId == s.traceId) :=
      List.mem_filter.mpr ⟨hs, by simp⟩
    have hlook := groupByTrace_lookup spans s.traceId ht
      (by intro hc; rw [hc] at hmem; simp at hmem)
    have hp := mem_of_lookup_eq_some hlook
    obtain ⟨out_g, hout_g, hiff_g⟩ := hiffg _ hp
    refine ⟨_, hp, out_g, hout_g, ?_⟩
    refine (hiff_g sid).mpr ⟨⟨s, hmem, hssid, hsgt⟩, ?_⟩
    intro c hc hcp hcs
    rw [List.mem_filter] at hc
    obtain ⟨hc, hct⟩ := hc
    rw [beq_iff_eq] at hct
    exact hchild c hc hct hcp hcs

/-- Witness for `c1_error_root_cause`: on the trace A(status 0, no parent),
B(status 2, parent A), C(status 2, parent B), the returned set contains
exactly C — B is excluded because its child C also errored, A because it did
not error. -/
theorem c1_witness :
    ∃ out, find_root_cause_spans
        [⟨"A", "", "0", "t"⟩, ⟨"B", "A", "2", "t"⟩, ⟨"C", "B", "2", "t"⟩] =
          some out ∧
      "C" ∈ out ∧ "B" ∉ out ∧ "A" ∉ out := by
  obtain ⟨out, hout, hiff⟩ := c1_error_root_cause
    [⟨"A", "", "0", "t"⟩, ⟨"B", "A", "2", "t"⟩, ⟨"C", "B", "2", "t"⟩]
    (by decide) (by decide) (by decide)
  refine ⟨out, hout, ?_, ?_, ?_⟩
  · exact (hiff "C").mpr (by decide)
  · intro h
    exact absurd ((hiff "B").mp h) (by decide)
  · intro h
    exact absurd ((hiff "A").mp h) (by decide)

theorem collectSpan_pos (mm : List (String × ℚ)) (t : String × Option ℚ)
    (hm : ∀ p ∈ mm, 0 < p.2) : ∀ p ∈ collectSpan mm t, 0 < p.2 := by
  intro p hp
  obtain ⟨sid, dopt⟩ := t
  rcases dopt with _ | d
  · exact hm p hp
  · simp only [collectSpan] at hp
    by_cases h0 : 0 < d
    · rw [if_pos h0] at hp
      rcases mem_setEntry hp with h | h
      · exact hm p h
      · rw [h]
        exact h0
    · rw [if_neg h0] at hp
      exact hm p hp

theorem collectRow_pos (m : List (String × ℚ)) (row : BRow)
    (hm : ∀ p ∈ m, 0 < p.2) : ∀ p ∈ collectRow m row, 0 < p.2 := by
  rw [collectRow]
  by_cases hlen : row.span_id.length ≠ row.exclusive_duration.length
  · rw [if_pos hlen]
    exact hm
  · rw [if_neg hlen]
    have : ∀ (ts : List (String × Option ℚ)) (mm : List (String × ℚ)),
        (∀ p ∈ mm, 0 < p.2) → ∀ p ∈ ts.foldl collectSpan mm, 0 < p.2 := by
      intro ts
      induction ts with
      | nil => intro mm hmm; exact hmm
      | cons t ts ih =>
        intro mm hmm
        rw [List.foldl_cons]
        exact ih _ (collectSpan_pos mm t hmm)
    exact this _ m hm

theorem baselineCollect_pos (logs : List BRow) :
    ∀ p ∈ baselineCollect logs, 0 < p.2 := by
  rw [baselineCollect]
  have : ∀ (rows : List BRow) (m : List (String × ℚ)),
      (∀ p ∈ m, 0 < p.2) → ∀ p ∈ rows.foldl collectRow m, 0 < p.2 := by
    intro rows
    induction rows with
    | nil => intro m hm; exact hm
    | cons r rs ih =>
      intro m hm
      rw [List.foldl_cons]
      exact ih _ (collectRow_pos m r hm)
  exact this logs [] (by simp)

theorem pySortStrings_sorted (key : String → ℚ) (ids : List String) :
    List.Pairwise (fun a b => key b ≤ key a) (pySortStrings key ids) := by
  have htot : IsTotal String (fun a b => key b ≤ key a) :=
    ⟨fun a b => le_total (key b) (key a)⟩
  have htrans : IsTrans String (fun a b => key b ≤ key a) :=
    ⟨fun a b c hab hbc => le_trans hbc hab⟩
  exact List.sorted_insertionSort _ ids

theorem pySortStrings_perm (key : String → ℚ) (ids : List String) :
    (pySortStrings key ids).Perm ids :=
  List.perm_insertionSort _ ids

theorem keysOf_pair_map {β : Type} (f : String → β) (l : List String) :
    keysOf (l.map (fun sid => (sid, f sid))) = l := by
  induction l with
  | nil => rfl
  | cons a t ih =>
    simp only [List.map_cons, keysOf] at ih ⊢
    rw [ih]

theorem baselineRetain_cap (cap : ℕ) (collected : List (String × ℚ))
    (h : collected.length > cap) :
    (baselineRetain cap collected).length = cap ∧
    keysOf (baselineRetain cap collected) =
      (pySortStrings (fun sid => (collected.lookup sid).getD 0)
        (keysOf collected)).take cap ∧
    (∀ p ∈ baselineRetain cap collected,
      p.2 = (collected.lookup p.1).getD 0) ∧
    ∀ sid ∈ keysOf (baselineRetain cap collected),
      ∀ sid' ∈ (pySortStrings (fun s => (collected.lookup s).getD 0)
          (keysOf collected)).drop cap,
        (collected.lookup sid').getD 0 ≤ (collected.lookup sid).getD 0 := by
  have hlen : (pySortStrings (fun sid => (collected.lookup sid).getD 0)
      (keysOf collected)).length = collected.length := by
    rw [(pySortStrings_perm _ _).length_eq]
    simp [keysOf]
  rw [baselineRetain, if_pos h]
  refine ⟨?_, ?_, ?_, ?_⟩
  · rw [List.length_map, List.length_take, hlen]
    omega
  · rw [keysOf_pair_map]
  · intro p hp
    rw [List.mem_map] at hp
    obtain ⟨sid, _, rfl⟩ := hp
    rfl
  · intro sid hsid sid' hsid'
    rw [keysOf_pair_map] at hsid
    have hpair := pySortStrings_sorted
      (fun s => (collected.lookup s).getD 0) (keysOf collected)
    rw [← List.take_append_drop cap (pySortStrings
      (fun s => (collected.lookup s).getD 0) (keysOf collected)),
      List.pairwise_append] at hpair
    exact hpair.2.2 sid hsid sid' hsid'

theorem baselineRetain_id (cap : ℕ) (collected : List (String × ℚ))
    (h : ¬ collected.length > cap) :
    baselineRetain cap collected = collected := by
  rw [baselineRetain, if_neg h]

theorem durationsFor_cons (k : String) (retained : List (String × ℚ))
    (r : String × String × String) (rest : List (String × String × String)) :
    durationsFor k retained (r :: rest) =
      (match retained.lookup r.1 with
        | some d =>
          if r.2.1 ≠ "" ∧ r.2.2 ≠ "" ∧ mkKey r.2.1 r.2.2 = k then [d] else []
        | none => []) ++ durationsFor k retained rest := by
  rw [durationsFor, List.filterMap_cons]
  rcases hl : retained.lookup r.1 with _ | d
  · simp only [hl]
    rw [List.nil_append]
    rfl
  · simp only [hl]
    by_cases hc : r.2.1 ≠ "" ∧ r.2.2 ≠ "" ∧ mkKey r.2.1 r.2.2 = k
    · rw [if_pos hc, if_pos hc, List.singleton_append]
      rfl
    · rw [if_neg hc, if_neg hc, List.nil_append]
      rfl

theorem groupBaseline_entries (retained : List (String × ℚ))
    (idents : List (String × (String × String))) :
    ∀ (acc : List (String × List ℚ)) (k : String),
      entriesOf k
          (idents.foldl
            (fun acc r =>
              match retained.lookup r.1 with
              | some d =>
                if r.2.1 ≠ "" ∧ r.2.2 ≠ "" then addEntry acc (mkKey r.2.1 r.2.2) d
                else acc
              | none => acc) acc) =
        entriesOf k acc ++ durationsFor k retained idents := by
  induction idents with
  | nil =>
    intro acc k
    simp [durationsFor]
  | cons r rest ih =>
    intro acc k
    rw [List.foldl_cons, durationsFor_cons]
    rcases hl : retained.lookup r.1 with _ | d
    · simp only [hl]
      rw [ih]
      simp
    · simp only [hl]
      by_cases hnm : r.2.1 ≠ "" ∧ r.2.2 ≠ ""
      · rw [if_pos hnm, ih, entriesOf_addEntry]
        by_cases hk : k = mkKey r.2.1 r.2.2
        · rw [if_pos hk, if_pos ⟨hnm.1, hnm.2, hk.symm⟩]
          simp [List.append_assoc]
        · rw [if_neg hk, if_neg (fun hc => hk hc.2.2.symm)]
          simp
      · rw [if_neg hnm, ih,
          if_neg (fun hc => hnm ⟨hc.1, hc.2.1⟩)]
        simp

theorem groupBaseline_nonempty (retained : List (String × ℚ))
    (idents : List (String × (String × String))) :
    ∀ q ∈ groupBaseline retained idents, q.2 ≠ [] := by
  rw [groupBaseline]
  have : ∀ (rows : List (String × (String × String)))
      (acc : List (String × List ℚ)), (∀ q ∈ acc, q.2 ≠ []) →
      ∀ q ∈ rows.foldl
        (fun acc r =>
          match retained.lookup r.1 with
          | some d =>
            if r.2.1 ≠ "" ∧ r.2.2 ≠ "" then addEntry acc (mkKey r.2.1 r.2.2) d
            else acc
          | none => acc) acc, q.2 ≠ [] := by
    intro rows
    induction rows with
    | nil => intro acc h; exact h
    | cons r rest ih =>
      intro acc h
      rw [List.foldl_cons]
      rcases hl : retained.lookup r.1 with _ | d
      · simp only [hl]
        exact ih _ h
      · simp only [hl]
        by_cases hnm : r.2.1 ≠ "" ∧ r.2.2 ≠ ""
        · rw [if_pos hnm]
          refine ih _ ?_
          intro q hq
          rcases mem_addEntry hq with ⟨p, hp, hq⟩ | hq
          · rcases hq with hq | hq
            · exact hq ▸ h p hp
            · rw [hq]
              simp
          · rw [hq]
            simp
        · rw [if_neg hnm]
          exact ih _ h
  exact this idents [] (by simp)

/-- C7: the baseline averager collects only spans with strictly positive
numeric exclusive duration; when the collected set exceeds the sampling cap
it retains exactly the cap-many spans of largest duration (stable
descending sort, truncate) and keeps their collected values; the returned
map carries, per combined key, the arithmetic mean of the retained,
identity-resolved durations; a reference window with no positive-duration
spans yields an empty map; and a consumer finding no baseline entry behaves
exactly as with a baseline average of 0. -/
theorem c7_baseline_averager :
    (∀ (logs : List BRow), ∀ p ∈ baselineCollect logs, 0 < p.2) ∧
    (∀ (cap : ℕ) (collected : List (String × ℚ)), collected.length > cap →
      (baselineRetain cap collected).length = cap ∧
      keysOf (baselineRetain cap collected) =
        (pySortStrings (fun sid => (collected.lookup sid).getD 0)
          (keysOf collected)).take cap ∧
      (∀ p ∈ baselineRetain cap collected,
        p.2 = (collected.lookup p.1).getD 0) ∧
      ∀ sid ∈ keysOf (baselineRetain cap collected),
        ∀ sid' ∈ (pySortStrings (fun s => (collected.lookup s).getD 0)
            (keysOf collected)).drop cap,
          (collected.lookup sid').getD 0 ≤ (collected.lookup sid).getD 0) ∧
    (∀ (cap : ℕ) (collected : List (String × ℚ)),
      ¬ collected.length > cap → baselineRetain cap collected = collected) ∧
    (∀ (cap : ℕ) (idents : List (String × (String × String)))
        (logs : List BRow) (k : String) (v : ℚ),
      (calculate_span_averages cap idents logs).lookup k = some v →
      durationsFor k (baselineRetain cap (baselineCollect logs)) idents ≠ [] ∧
      v = (durationsFor k (baselineRetain cap (baselineCollect logs))
          idents).sum /
        ((durationsFor k (baselineRetain cap (baselineCollect logs))
          idents).length : ℚ)) ∧
    (∀ (cap : ℕ) (idents : List (String × (String × String)))
        (logs : List BRow) (k : String),
      baselineCollect logs ≠ [] →
      durationsFor k (baselineRetain cap (baselineCollect logs)) idents ≠ [] →
      (calculate_span_averages cap idents logs).lookup k =
        some ((durationsFor k (baselineRetain cap (baselineCollect logs))
            idents).sum /
          ((durationsFor k (baselineRetain cap (baselineCollect logs))
            idents).length : ℚ))) ∧
    (∀ (cap : ℕ) (idents : List (String × (String × String)))
        (logs : List BRow), baselineCollect logs = [] →
      calculate_span_averages cap idents logs = []) ∧
    (∀ (averages : List (String × ℚ)) (maxD : ℚ) (nm : String × String)
        (trunc : ℚ), 0 ≤ trunc → trunc ≤ maxD →
      averages.lookup (mkKey nm.1 nm.2) = none →
      normAdj averages maxD (some nm) trunc = min (max 0 (trunc - 0)) maxD) := by
  refine ⟨baselineCollect_pos, baselineRetain_cap, baselineRetain_id,
    ?_, ?_, ?_, ?_⟩
  · intro cap idents logs k v hlk
    simp only [calculate_span_averages] at hlk
    by_cases hnil : baselineCollect logs = []
    · rw [if_pos hnil] at hlk
      simp [List.lookup] at hlk
    · rw [if_neg hnil, lookup_map_value] at hlk
      rcases hg : (groupBaseline (baselineRetain cap (baselineCollect logs))
          idents).lookup k with _ | ds
      · rw [hg] at hlk
        simp at hlk
      · rw [hg] at hlk
        simp only [Option.some.injEq] at hlk
        have hds : ds = durationsFor k
            (baselineRetain cap (baselineCollect logs)) idents := by
          have hent := groupBaseline_entries
            (baselineRetain cap (baselineCollect logs)) idents [] k
          rw [show (idents.foldl
              (fun acc r =>
                match (baselineRetain cap (baselineCollect logs)).lookup r.1 with
                | some d =>
                  if r.2.1 ≠ "" ∧ r.2.2 ≠ "" then
                    addEntry acc (mkKey r.2.1 r.2.2) d
                  else acc
                | none => acc) [] :
              List (String × List ℚ)) =
            groupBaseline (baselineRetain cap (baselineCollect logs)) idents
            from rfl] at hent
          simp only [entriesOf, hg, Option.getD_some, List.lookup_nil,
            Option.getD_none, List.nil_append] at hent
          exact hent
        have hne : ds ≠ [] :=
          groupBaseline_nonempty _ _ (k, ds) (mem_of_lookup_eq_some hg)
        rw [← hds]
        refine ⟨hne, ?_⟩
        rw [← hlk, qdiv_eq, qsum_eq, qofNat_eq]
    
  · intro cap idents logs k hnil hne
    simp only [calculate_span_averages]
    rw [if_neg hnil, lookup_map_value]
    have hent := groupBaseline_entries
      (baselineRetain cap (baselineCollect logs)) idents [] k
    rw [show (idents.foldl
        (fun acc r =>
          match (baselineRetain cap (baselineCollect logs)).lookup r.1 with
          | some d =>
            if r.2.1 ≠ "" ∧ r.2.2 ≠ "" then addEntry acc (mkKey r.2.1 r.2.2) d
            else acc
          | none => acc) [] :
        List (String × List ℚ)) =
      groupBaseline (baselineRetain cap (baselineCollect logs)) idents
      from rfl] at hent
    simp only [entriesOf, List.lookup_nil, Option.getD_none,
      List.nil_append] at hent
    rcases hg : (groupBaseline (baselineRetain cap (baselineCollect logs))
        idents).lookup k with _ | ds
    · rw [hg] at hent
      simp only [Option.getD_none] at hent
      exact absurd hent.symm hne
    · rw [hg] at hent
      simp only [Option.getD_some] at hent
      rw [hent]
      simp only [qdiv_eq, qsum_eq, qofNat_eq]
  · intro cap idents logs h
    simp only [calculate_span_averages]
    rw [if_pos h]
  · intro averages maxD nm trunc h0 hmax hnone
    rw [normAdj, hnone, sub_zero, max_eq_right h0, min_eq_left hmax]

/-- Witness for `c7_baseline_averager` at concrete inputs: two collected
spans (durations 4 and 6) under cap 1 retain exactly one span; the averager
over spans i(4), j(6) resolved to one key returns mean 5; an empty
reference window yields the empty map; and a consumer with no baseline
entry for `(s, n)` computes the same value as with baseline 0. -/
theorem c7_witness :
    (baselineRetain 1 [("i", 4), ("j", 6)]).length = 1 ∧
    (durationsFor (mkKey "s" "n") (baselineRetain 3000
        (baselineCollect [⟨["i", "j"], [some 4, some 6]⟩]))
        [("i", ("s", "n")), ("j", ("s", "n"))] ≠ [] ∧
      (5 : ℚ) = (durationsFor (mkKey "s" "n") (baselineRetain 3000
          (baselineCollect [⟨["i", "j"], [some 4, some 6]⟩]))
          [("i", ("s", "n")), ("j", ("s", "n"))]).sum /
        ((durationsFor (mkKey "s" "n") (baselineRetain 3000
          (baselineCollect [⟨["i", "j"], [some 4, some 6]⟩]))
          [("i", ("s", "n")), ("j", ("s", "n"))]).length : ℚ)) ∧
    calculate_span_averages 3000 [("i", ("s", "n"))] [] = [] ∧
    normAdj [] 100 (some ("s", "n")) 7 = min (max 0 ((7 : ℚ) - 0)) 100 := by
  refine ⟨?_, ?_, ?_, ?_⟩
  · exact (c7_baseline_averager.2.1 1 [("i", 4), ("j", 6)] (by decide)).1
  · exact c7_baseline_averager.2.2.2.1 3000
      [("i", ("s", "n")), ("j", ("s", "n"))]
      [⟨["i", "j"], [some 4, some 6]⟩] (mkKey "s" "n") 5 (by decide)
  · exact c7_baseline_averager.2.2.2.2.2.1 3000 [("i", ("s", "n"))] [] rfl
  · exact c7_baseline_averager.2.2.2.2.2.2 [] 100 ("s", "n") 7 (by decide)
      (by decide) (by decide)
